import Mathlib

/-!
Verification of the static-analysis core of a Godot MCP server
(advanced-analysis module: dead-code detector, signal-flow analyzer,
autoload dependency graph, duplication normalizer, complexity heatmap).

The JavaScript/TypeScript source is shallowly embedded: file contents are
`List Char`, each regular expression of the source is implemented as an
executable scanner with the exact match/backtracking semantics of the
original pattern, and every analysis entry point is a pure function from a
corpus (list of path/content pairs) to the data structure the source
serializes.  File reads that may fail are modelled with `Option`/`Except`.
-/

namespace GodotMCP

/-- Text is modelled as a list of characters (the JS engine's view of a
string, restricted to the code points the analyzed sources use). -/
abbrev Str := List Char

/-- Word characters of the JS regex class `\w`, i.e. `[A-Za-z0-9_]`. -/
def isWordChar (c : Char) : Bool :=
  c.isAlphanum || c = '_'

/-- Whitespace characters of the JS regex class `\s` (ASCII part, which is
all the analyzed sources contain). -/
def isWs (c : Char) : Bool :=
  c = ' ' || c = '\t' || c = '\n' || c = '\r' || c = Char.ofNat 11 || c = Char.ofNat 12

/-- Start character of the case-insensitive class `[a-z_]` used by the
bare-identifier fallback pattern: an ASCII letter or underscore. -/
def isIdentStart (c : Char) : Bool :=
  c.isAlpha || c = '_'

/-- Does the first character of a name fit the `[a-z_]` (case-insensitive)
start class — equivalently, is it not a digit, for a `\w+`-shaped name? -/
def identStartHead : Str → Bool
  | [] => false
  | c :: _ => isIdentStart c

/-- The single-quote character (written via its code to keep sources tidy). -/
def squote : Char := Char.ofNat 39

/-- Characters matched by the JS class `["']`. -/
def isQuote (c : Char) : Bool :=
  c = '"' || c = squote

/-- Strip an expected literal from the head of the input, returning the
remainder on success. -/
def stripPre : Str → Str → Option Str
  | [], s => some s
  | _, [] => none
  | p :: ps, c :: cs => if c = p then stripPre ps cs else none

/-- Require at least one whitespace character (`\s+`), returning the rest. -/
def parseWsPlus (s : Str) : Option Str :=
  if s.takeWhile isWs = [] then none else some (s.dropWhile isWs)

/-- Require at least one word character (`\w+`), returning the greedy
(maximal) run and the rest. -/
def parseWordPlus (s : Str) : Option (Str × Str) :=
  let w := s.takeWhile isWordChar
  if w = [] then none else some (w, s.dropWhile isWordChar)

/-- JS `String.prototype.trim` on the ASCII whitespace the sources use. -/
def jsTrim (s : Str) : Str :=
  ((s.dropWhile isWs).reverse.dropWhile isWs).reverse

/-- JS `content.split("\n")`: always returns at least one (possibly empty)
line; does not merge adjacent separators. -/
def splitLines : Str → List Str
  | [] => [[]]
  | c :: rest =>
    if c = '\n' then [] :: splitLines rest
    else
      match splitLines rest with
      | [] => [[c]]
      | l :: ls => (c :: l) :: ls

/-- JS `key.split("::")`, leftmost-first, used by the dead-code decide pass
to recover a name from a `relativePath::name` map key. -/
def splitCC : Str → List Str
  | [] => [[]]
  | ':' :: ':' :: rest =>
    [] :: splitCC rest
  | c :: rest =>
    match splitCC rest with
    | [] => [[c]]
    | l :: ls => (c :: l) :: ls

/-- The element JS reads as `key.split("::")[1]` (the key always contains
`::` in the modelled code paths, so the fallback is never reached). -/
def splitCCsecond (k : Str) : Str :=
  match splitCC k with
  | _ :: n :: _ => n
  | _ => []

/-!
### Generic regex-scan combinators

`scanAllF` reproduces `String.prototype.matchAll` for the never-empty
patterns of the source: it tries a deterministic matcher at every position
from left to right and, on a match, resumes immediately after the match
(`lastIndex` semantics).  A matcher receives the character immediately
before the current position (for `\b` word boundaries) and the remaining
suffix; on success it returns the captured group, the last consumed
character, and the suffix after the match.
-/

/-- A single-capture regex matcher anchored at the current position. -/
abbrev Matcher := Option Char → Str → Option (Str × Char × Str)

/-- Run a matcher at every position, left to right, skipping past each
match; `fuel` bounds the recursion (the initial string length suffices
because every matcher consumes at least one character). -/
def scanAllF (m : Matcher) : Nat → Option Char → Str → List Str
  | 0, _, _ => []
  | _ + 1, _, [] => []
  | fuel + 1, prev, c :: rest =>
    match m prev (c :: rest) with
    | some (cap, lc, r) => cap :: scanAllF m fuel (some lc) r
    | none => scanAllF m fuel (some c) rest

/-- All captures of `matchAll` over a whole string. -/
def scanAll (m : Matcher) (s : Str) : List Str :=
  scanAllF m s.length none s

/-- First match of an unanchored single-line `String.prototype.match`:
try the matcher at every position, left to right, and return the first
success. -/
def firstMatchF {α : Type} (m : Str → Option α) : Nat → Str → Option α
  | 0, _ => none
  | _ + 1, [] => none
  | fuel + 1, c :: rest =>
    match m (c :: rest) with
    | some a => some a
    | none => firstMatchF m fuel rest

/-- First unanchored match over a line. -/
def firstMatch {α : Type} (m : Str → Option α) (s : Str) : Option α :=
  firstMatchF m s.length s

/-!
### Matchers for the usage-detection regexes of `detectDeadCode` (phase 2)

Each matcher is the deterministic residue of the corresponding JS regex at
a fixed position; the disjointness of the character classes involved makes
the greedy match unique, except where noted (the negative lookahead of the
property-access pattern and the `[^)]*` backtracking of the string-connect
pattern, which are reproduced explicitly).
-/

/-- Is the previous character a word character (breaks a `\b` boundary in
front of a word-character match)? -/
def prevIsWord : Option Char → Bool
  | none => false
  | some c => isWordChar c

/-- Regex `\b(\w+)\s*\(` — direct function calls. -/
def directCallM : Matcher := fun prev s =>
  if prevIsWord prev then none
  else
    let w := s.takeWhile isWordChar
    if w = [] then none
    else
      match (s.dropWhile isWordChar).dropWhile isWs with
      | '(' :: rest => some (w, '(', rest)
      | _ => none

/-- Regex `\.(\w+)\s*\(` — dotted method calls. -/
def dottedCallM : Matcher := fun _ s =>
  match s with
  | '.' :: r =>
    let w := r.takeWhile isWordChar
    if w = [] then none
    else
      match (r.dropWhile isWordChar).dropWhile isWs with
      | '(' :: rest => some (w, '(', rest)
      | _ => none
  | _ => none

/-- Did `\s*\(` succeed at this position (the lookahead of the
property-access pattern)? -/
def wsParen (s : Str) : Bool :=
  match s.dropWhile isWs with
  | '(' :: _ => true
  | _ => false

/-- Regex `\.(\w+)(?!\s*\()` — property access.  When the full word run is
followed by `\s*\(` the engine backtracks the greedy `\w+` by one
character, at which point the lookahead fails (the next character is a
word character), so the capture is the run minus its last character. -/
def propAccessM : Matcher := fun _ s =>
  match s with
  | '.' :: r =>
    let w := r.takeWhile isWordChar
    if w = [] then none
    else
      let rest := r.dropWhile isWordChar
      if wsParen rest then
        if 2 ≤ w.length then
          let w' := w.take (w.length - 1)
          some (w', w'.getLastD ' ', w.drop (w.length - 1) ++ rest)
        else none
      else some (w, w.getLastD ' ', rest)
  | _ => none

/-- Shared shape `(\w+)` ++ literal ++ `\s*\(`, used by the `.emit(` and
`.connect(` receiver patterns. -/
def recvM (lit : Str) : Matcher := fun _ s =>
  let w := s.takeWhile isWordChar
  if w = [] then none
  else
    match stripPre lit (s.dropWhile isWordChar) with
    | some r2 =>
      match r2.dropWhile isWs with
      | '(' :: rest => some (w, '(', rest)
      | _ => none
    | none => none

/-- Regex `(\w+)\.emit\s*\(` — signal emissions. -/
def emitRecvM : Matcher := recvM (".emit".toList)

/-- Regex `(\w+)\.connect\s*\(` — signal connections. -/
def connectRecvM : Matcher := recvM (".connect".toList)

/-- Parse `["'](\w+)["']` — a quoted word with either quote on either
side — returning the capture, the closing quote, and the rest. -/
def quotedWord (s : Str) : Option (Str × Char × Str) :=
  match s with
  | q :: r =>
    if isQuote q then
      let w := r.takeWhile isWordChar
      if w = [] then none
      else
        match r.dropWhile isWordChar with
        | q2 :: rest => if isQuote q2 then some (w, q2, rest) else none
        | [] => none
    else none
  | [] => none

/-- Parse `\s*\(\s*` followed by a quoted word. -/
def parenQuotedWord (s : Str) : Option (Str × Char × Str) :=
  match s.dropWhile isWs with
  | '(' :: r => quotedWord (r.dropWhile isWs)
  | _ => none

/-- Alternation of literal heads followed by `\s*\(\s*["'](\w+)["']`,
tried in the regex's left-to-right order. -/
def altCallM (alts : List Str) : Matcher := fun _ s =>
  alts.firstM fun alt =>
    match stripPre alt s with
    | some r => parenQuotedWord r
    | none => none

/-- Regex `(?:call|call_deferred|callv|call_thread_safe)\s*\(\s*["'](\w+)["']`. -/
def callStrM : Matcher :=
  altCallM [("call".toList), ("call_deferred".toList), ("callv".toList),
    ("call_thread_safe".toList)]

/-- Regex `(?:get_meta|set_meta|has_meta)\s*\(\s*["'](\w+)["']`. -/
def metaM : Matcher :=
  altCallM [("get_meta".toList), ("set_meta".toList), ("has_meta".toList)]

/-- Regex `has_method\s*\(\s*["'](\w+)["']`. -/
def hasMethodM : Matcher := altCallM [("has_method".toList)]

/-- Regex `Callable\s*\([^,]+,\s*["'](\w+)["']`: the greedy `[^,]+` run
extends exactly to the first comma, after which the quoted word must
follow immediately (modulo `\s*`). -/
def callableM : Matcher := fun _ s =>
  match stripPre ("Callable".toList) s with
  | some r =>
    match r.dropWhile isWs with
    | '(' :: r2 =>
      let before := r2.takeWhile (fun c => !(c = ','))
      if before = [] then none
      else
        match r2.dropWhile (fun c => !(c = ',')) with
        | ',' :: r3 => quotedWord (r3.dropWhile isWs)
        | _ => none
    | _ => none
  | none => none

/-- Scan the `[^)]*` run for the rightmost quoted word (the greedy
backtracking of `connect\s*\([^)]*["'](\w+)["']` selects the longest
`[^)]*`, i.e. the last quoted word before the first `)`), keeping the best
success seen so far. -/
def lastQuotedF : Nat → Str → Option (Str × Char × Str) → Option (Str × Char × Str)
  | 0, _, best => best
  | _ + 1, [], best => best
  | fuel + 1, c :: rest, best =>
    if c = ')' then best
    else
      match quotedWord (c :: rest) with
      | some hit => lastQuotedF fuel rest (some hit)
      | none => lastQuotedF fuel rest best

/-- Regex `connect\s*\([^)]*["'](\w+)["']`. -/
def connectStrM : Matcher := fun _ s =>
  match stripPre ("connect".toList) s with
  | some r =>
    match r.dropWhile isWs with
    | '(' :: r2 => lastQuotedF r2.length r2 none
    | _ => none
  | none => none

/-- Regex `await\s+(\w+)`. -/
def awaitM : Matcher := fun _ s =>
  match stripPre ("await".toList) s with
  | some r =>
    match parseWsPlus r with
    | some r2 =>
      match parseWordPlus r2 with
      | some (w, rest) => some (w, w.getLastD ' ', rest)
      | none => none
    | none => none
  | none => none

/-- Regex `(?:\[["']|\.get\s*\(\s*["'])(\w+)["']` — dictionary/array
string keys. -/
def dictM : Matcher := fun _ s =>
  match s with
  | '[' :: r => quotedWord r
  | _ =>
    match stripPre (".get".toList) s with
    | some r => parenQuotedWord r
    | none => none

/-- Regex `\b([a-z_][a-z0-9_]*)\b` with the `i` flag — the generic
bare-identifier fallback (matches any maximal word run whose head is a
letter or underscore and whose start is at a word boundary). -/
def bareIdentM : Matcher := fun prev s =>
  if prevIsWord prev then none
  else
    match s with
    | c :: _ =>
      if isIdentStart c then
        let w := s.takeWhile isWordChar
        some (w, w.getLastD ' ', s.dropWhile isWordChar)
      else none
    | [] => none

/-- Regex `super\.(\w+)\s*\(`. -/
def superCallM : Matcher := fun _ s =>
  match stripPre ("super.".toList) s with
  | some r =>
    match parseWordPlus r with
    | some (w, rest) =>
      match rest.dropWhile isWs with
      | '(' :: rest2 => some (w, '(', rest2)
      | _ => none
    | none => none
  | none => none

/-- Regex `method="(\w+)"` used on scene files. -/
def sceneMethodM : Matcher := fun _ s =>
  match stripPre ("method=\"".toList) s with
  | some r =>
    match parseWordPlus r with
    | some (w, rest) =>
      match rest with
      | '"' :: rest2 => some (w, '"', rest2)
      | _ => none
    | none => none
  | none => none

/-!
### Declaration-line recognizers of `detectDeadCode` (phase 1)

These are the anchored per-line regexes run after `content.split("\n")`.
-/

/-- Shared head shape `^lit\s+(\w+)` of the declaration regexes:
literal, one-plus whitespace, then the greedy word capture; returns the
capture and the rest of the line. -/
def litThenWord (lit s : Str) : Option (Str × Str) :=
  match stripPre lit s with
  | none => none
  | some r1 =>
    match parseWsPlus r1 with
    | none => none
    | some r2 => parseWordPlus r2

/-- Regex `^func\s+(\w+)\s*\(`, returning the captured function name. -/
def funcDecl (line : Str) : Option Str :=
  match litThenWord ("func".toList) line with
  | none => none
  | some (name, r3) =>
    match r3.dropWhile isWs with
    | '(' :: _ => some name
    | _ => none

/-- Regex `^(@export(?:_\w+)?\s+)?var\s+(\w+)`, returning
(isExported, name).  The optional export group is tried with its inner
`_\w+` first, then without it; if the group cannot match, the bare `var`
must sit at the line start, which is impossible when the line starts with
`@export`, so the whole match fails.  `varNameTail` is the `var\s+(\w+)`
tail shared by both branches. -/
def varNameTail (s : Str) : Option Str :=
  (litThenWord ("var".toList) s).map (fun pr => pr.1)

/-- The optional `(@export(?:_\w+)?\s+)` group after its `@export` head:
try the inner `_\w+` (greedy, then mandatory whitespace) first, then the
bare-whitespace alternative. -/
def exportSkipExt (r : Str) : Option Str :=
  match r with
  | c :: r2 =>
    if c = '_' then
      match parseWordPlus r2 with
      | some (_, r3) => parseWsPlus r3
      | none => none
    else none
  | [] => none

/-- The whole optional group tail: inner `_\w+` alternative first, then
the bare `\s+`. -/
def exportSkip (r : Str) : Option Str :=
  match exportSkipExt r with
  | some rr => some rr
  | none => parseWsPlus r

/-- See the doc comment above `varNameTail` for the full regex. -/
def varDecl (line : Str) : Option (Bool × Str) :=
  match stripPre ("@export".toList) line with
  | some r =>
    match exportSkip r with
    | some rr => (varNameTail rr).map (fun n => (true, n))
    | none => none
  | none => (varNameTail line).map (fun n => (false, n))

/-- Regex `^signal\s+(\w+)`, returning the captured signal name. -/
def sigDecl (line : Str) : Option Str :=
  (litThenWord ("signal".toList) line).map (fun pr => pr.1)

/-- The fixed allowlist `VIRTUAL_METHODS` of engine-called methods. -/
def virtualMethods : List Str :=
  [("_init".toList), ("_ready".toList), ("_enter_tree".toList),
   ("_exit_tree".toList), ("_notification".toList),
   ("_process".toList), ("_physics_process".toList),
   ("_unhandled_input".toList), ("_unhandled_key_input".toList),
   ("_input".toList), ("_shortcut_input".toList), ("_gui_input".toList),
   ("_draw".toList), ("_get_minimum_size".toList),
   ("_get".toList), ("_set".toList), ("_get_property_list".toList),
   ("_property_can_revert".toList), ("_property_get_revert".toList),
   ("_validate_property".toList),
   ("_to_string".toList),
   ("_get_configuration_warnings".toList), ("_get_tool_buttons".toList),
   ("_setup_local_to_scene".toList),
   ("_state_enter".toList), ("_state_exit".toList),
   ("_state_process".toList), ("_state_physics_process".toList),
   ("enter".toList), ("exit".toList), ("update".toList),
   ("physics_update".toList)]

/-- The `PUBLIC_API_PATTERNS` anchored-head regexes (`/^get_/` etc.):
membership is a head-literal test. -/
def publicApiHeads : List Str :=
  [("get_".toList), ("set_".toList), ("is_".toList), ("has_".toList),
   ("can_".toList), ("add_".toList), ("remove_".toList), ("clear_".toList),
   ("start_".toList), ("stop_".toList), ("pause_".toList),
   ("resume_".toList), ("enable_".toList), ("disable_".toList),
   ("toggle_".toList), ("load_".toList), ("save_".toList),
   ("reset_".toList), ("show_".toList), ("hide_".toList),
   ("update_".toList), ("play_".toList), ("queue_".toList),
   ("emit_".toList), ("broadcast_".toList), ("register_".toList),
   ("unregister_".toList), ("on_".toList), ("handle_".toList)]

/-- Does some public-API pattern match the name? -/
def isPublicApi (name : Str) : Bool :=
  publicApiHeads.any (fun p => p.isPrefixOf name)

/-- A source file of the corpus: relative path and raw content. -/
abbrev SrcFile := Str × Str

/-- Function-declaration record of `allFunctions` (phase 1). -/
structure FnInfo where
  file : Str
  line : Nat
  isPriv : Bool
  isExp : Bool
  hasDoc : Bool
deriving DecidableEq, Repr

/-- Variable-declaration record of `allVariables` (phase 1). -/
structure VarInfo where
  file : Str
  line : Nat
  isPriv : Bool
  isExp : Bool
deriving DecidableEq, Repr

/-- Signal-declaration record of `allSignals` (phase 1). -/
structure SigInfo where
  file : Str
  line : Nat
deriving DecidableEq, Repr

/-- JS `Map.set`: replace an existing key in place or append at the end. -/
def mapSet {α : Type} (k : Str) (v : α) : List (Str × α) → List (Str × α)
  | [] => [(k, v)]
  | (k', v') :: rest =>
    if k' = k then (k, v) :: rest else (k', v') :: mapSet k v rest

/-- The three declaration maps built by phase 1. -/
structure Decls where
  fns : List (Str × FnInfo)
  vars : List (Str × VarInfo)
  sigs : List (Str × SigInfo)
deriving Repr

/-- Enumerate the lines of a file together with their index and the
previous line (`""` for the first line), as the phase-1 loop reads them. -/
def enumLines : Nat → Str → List Str → List (Nat × Str × Str)
  | _, _, [] => []
  | i, prev, l :: rest => (i, l, prev) :: enumLines (i + 1) l rest

/-- The map key `${relativePath}::${name}`. -/
def keyOf (path name : Str) : Str :=
  path ++ ("::".toList) ++ name

/-- Phase-1 function-declaration step: skips virtual methods and `_on_`
handlers, otherwise records the declaration. -/
def stepFn (path line prevLine : Str) (i : Nat) (acc : Decls) : Decls :=
  match funcDecl line with
  | some name =>
    if virtualMethods.contains name then acc
    else if ("_on_".toList).isPrefixOf name then acc
    else
      let info := FnInfo.mk path (i + 1) (("_".toList).isPrefixOf name) false
        (("##".toList).isPrefixOf (jsTrim prevLine))
      { acc with fns := mapSet (keyOf path name) info acc.fns }
  | none => acc

/-- Phase-1 variable-declaration step. -/
def stepVar (path line : Str) (i : Nat) (acc : Decls) : Decls :=
  match varDecl line with
  | some (exported, name) =>
    let info := VarInfo.mk path (i + 1) (("_".toList).isPrefixOf name) exported
    { acc with vars := mapSet (keyOf path name) info acc.vars }
  | none => acc

/-- Phase-1 signal-declaration step. -/
def stepSig (path line : Str) (i : Nat) (acc : Decls) : Decls :=
  match sigDecl line with
  | some name =>
    let info := SigInfo.mk path (i + 1)
    { acc with sigs := mapSet (keyOf path name) info acc.sigs }
  | none => acc

/-- Phase-1 processing of one line of one file. -/
def collectLine (path : Str) (acc : Decls) : Nat × Str × Str → Decls
  | (i, line, prevLine) =>
    stepSig path line i (stepVar path line i (stepFn path line prevLine i acc))

/-- Phase 1 over one file. -/
def collectFileDecls (acc : Decls) (f : SrcFile) : Decls :=
  (enumLines 0 [] (splitLines f.2)).foldl (collectLine f.1) acc

/-- Phase 1 over the whole corpus. -/
def collectDecls (files : List SrcFile) : Decls :=
  files.foldl collectFileDecls { fns := [], vars := [], sigs := [] }

/-- Phase-2 extractors whose captures go into `usages`, in source order,
for one script file. -/
def phase2Usages (c : Str) : List Str :=
  scanAll directCallM c ++ scanAll dottedCallM c ++ scanAll propAccessM c ++
  scanAll emitRecvM c ++ scanAll connectRecvM c ++ scanAll callStrM c ++
  scanAll callableM c ++ scanAll connectStrM c ++ scanAll awaitM c ++
  scanAll bareIdentM c ++ scanAll superCallM c ++ scanAll hasMethodM c

/-- Phase-2 extractors whose captures go into `stringReferences` for one
script file. -/
def phase2Refs (c : Str) : List Str :=
  scanAll callStrM c ++ scanAll callableM c ++ scanAll connectStrM c ++
  scanAll dictM c ++ scanAll hasMethodM c ++ scanAll metaM c

/-- Scene-file (`.tscn`) extractors feeding `usages`. -/
def sceneUsages (c : Str) : List Str :=
  scanAll sceneMethodM c ++ scanAll dottedCallM c

/-- Scene-file extractors feeding `stringReferences`. -/
def sceneRefs (c : Str) : List Str :=
  scanAll sceneMethodM c

/-- The `usages` set of a scan (membership is all the source ever asks). -/
def usagesOf (files scenes : List SrcFile) : List Str :=
  files.flatMap (fun f => phase2Usages f.2) ++
  scenes.flatMap (fun f => sceneUsages f.2)

/-- The `stringReferences` set of a scan. -/
def stringRefsOf (files scenes : List SrcFile) : List Str :=
  files.flatMap (fun f => phase2Refs f.2) ++
  scenes.flatMap (fun f => sceneRefs f.2)

/-- A reported dead-code candidate (`{ ...value, name }` in the source). -/
structure DeadFn where
  name : Str
  file : Str
  line : Nat
  isPriv : Bool
  isExp : Bool
  hasDoc : Bool
deriving DecidableEq, Repr

/-- A reported dead-variable candidate. -/
structure DeadVar where
  name : Str
  file : Str
  line : Nat
  isPriv : Bool
  isExp : Bool
deriving DecidableEq, Repr

/-- A reported dead-signal candidate. -/
structure DeadSig where
  name : Str
  file : Str
  line : Nat
deriving DecidableEq, Repr

/-- The result of `detectDeadCode` (the full candidate lists; the JSON
response additionally truncates each list to its first 50 entries). -/
structure DeadCodeResult where
  decls : Decls
  usages : List Str
  stringRefs : List Str
  deadFunctions : List DeadFn
  deadVariables : List DeadVar
  deadSignals : List DeadSig
deriving Repr

/-- Phase-3 decision for one `allFunctions` entry. -/
def decideFn (us refs : List Str) (kv : Str × FnInfo) : Option DeadFn :=
  let name := splitCCsecond kv.1
  if name ∈ us then none
  else if name ∈ refs then none
  else if !kv.2.isPriv && kv.2.hasDoc then none
  else if !kv.2.isPriv && isPublicApi name then none
  else some { name := name, file := kv.2.file, line := kv.2.line,
              isPriv := kv.2.isPriv, isExp := kv.2.isExp,
              hasDoc := kv.2.hasDoc }

/-- Phase-3 decision for one `allVariables` entry. -/
def decideVar (us : List Str) (kv : Str × VarInfo) : Option DeadVar :=
  let name := splitCCsecond kv.1
  if name ∈ us then none
  else if kv.2.isExp then none
  else some { name := name, file := kv.2.file, line := kv.2.line,
              isPriv := kv.2.isPriv, isExp := kv.2.isExp }

/-- Phase-3 decision for one `allSignals` entry. -/
def decideSig (us refs : List Str) (kv : Str × SigInfo) : Option DeadSig :=
  let name := splitCCsecond kv.1
  if name ∈ us then none
  else if name ∈ refs then none
  else some { name := name, file := kv.2.file, line := kv.2.line }

/-- The dead-code detector: phase 1 collects declarations keyed by
`path::name`, phase 2 collects usages and string references from the same
script files plus the scene files, phase 3 filters. -/
def detectDeadCode (files scenes : List SrcFile) : DeadCodeResult :=
  let ds := collectDecls files
  let us := usagesOf files scenes
  let refs := stringRefsOf files scenes
  { decls := ds, usages := us, stringRefs := refs,
    deadFunctions := ds.fns.filterMap (decideFn us refs),
    deadVariables := ds.vars.filterMap (decideVar us),
    deadSignals := ds.sigs.filterMap (decideSig us refs) }

/-!
### Signal-flow analyzer (`analyzeSignalFlow`)
-/

/-- A `signal name(params)?` declaration record. -/
structure SigDeclRec where
  file : Str
  line : Nat
  name : Str
  params : Str
deriving DecidableEq, Repr

/-- A recognized connection; qualified matches carry the emitter in
`source`, shorthand matches leave it `none` (the JS object simply lacks
the property). -/
structure ConnRec where
  file : Str
  line : Nat
  source : Option Str
  signal : Str
  handler : Str
deriving DecidableEq, Repr

/-- A recognized `name.emit(args)` emission. -/
structure EmitRec where
  file : Str
  line : Nat
  signal : Str
  args : Str
deriving DecidableEq, Repr

/-- Line regex `^signal\s+(\w+)(?:\(([^)]*)\))?`: name plus optional
parameter text (`""` when the group is absent, as `match[2] || ""`). -/
def sigDefLine (line : Str) : Option (Str × Str) :=
  match stripPre ("signal".toList) line with
  | none => none
  | some r1 =>
    match parseWsPlus r1 with
    | none => none
    | some r2 =>
      match parseWordPlus r2 with
      | none => none
      | some (name, r3) =>
        match r3 with
        | '(' :: r4 =>
          let inner := r4.takeWhile (fun c => !(c = ')'))
          match r4.dropWhile (fun c => !(c = ')')) with
          | ')' :: _ => some (name, inner)
          | _ => some (name, [])
        | _ => some (name, [])

/-- Unanchored matcher for `(\w+)\.(\w+)\.connect\(([^)]+)\)`. -/
def connQualM (s : Str) : Option (Str × Str × Str) :=
  match parseWordPlus s with
  | none => none
  | some (src, r1) =>
    match r1 with
    | '.' :: r2 =>
      match parseWordPlus r2 with
      | none => none
      | some (sig, r3) =>
        match stripPre (".connect(".toList) r3 with
        | none => none
        | some r4 =>
          let h := r4.takeWhile (fun c => !(c = ')'))
          if h = [] then none
          else
            match r4.dropWhile (fun c => !(c = ')')) with
            | ')' :: _ => some (src, sig, h)
            | _ => none
    | _ => none

/-- Unanchored matcher for `(\w+)\.connect\(([^)]+)\)`. -/
def connShortM (s : Str) : Option (Str × Str) :=
  match parseWordPlus s with
  | none => none
  | some (sig, r1) =>
    match stripPre (".connect(".toList) r1 with
    | none => none
    | some r2 =>
      let h := r2.takeWhile (fun c => !(c = ')'))
      if h = [] then none
      else
        match r2.dropWhile (fun c => !(c = ')')) with
        | ')' :: _ => some (sig, h)
        | _ => none

/-- Unanchored matcher for `(\w+)\.emit\(([^)]*)\)`. -/
def emitLineM (s : Str) : Option (Str × Str) :=
  match parseWordPlus s with
  | none => none
  | some (sig, r1) =>
    match stripPre (".emit(".toList) r1 with
    | none => none
    | some r2 =>
      let a := r2.takeWhile (fun c => !(c = ')'))
      match r2.dropWhile (fun c => !(c = ')')) with
      | ')' :: _ => some (sig, a)
      | _ => none

/-- Per-line collection of declarations, connections and emissions: the
source runs `line.match(...)` (first match only) for each shape, and the
shorthand connection is suppressed when the qualified shape matched. -/
def sfLine (path : Str) (st : List SigDeclRec × List ConnRec × List EmitRec) :
    Nat × Str × Str → List SigDeclRec × List ConnRec × List EmitRec
  | (i, line, _) =>
    let (sigs, conns, emits) := st
    let sigs :=
      match sigDefLine line with
      | some (n, ps) => sigs ++ [SigDeclRec.mk path (i + 1) n ps]
      | none => sigs
    let q := firstMatch connQualM line
    let conns :=
      match q with
      | some (src, sg, h) => conns ++ [ConnRec.mk path (i + 1) (some src) sg h]
      | none => conns
    let conns :=
      match q with
      | some _ => conns
      | none =>
        match firstMatch connShortM line with
        | some (sg, h) => conns ++ [ConnRec.mk path (i + 1) none sg h]
        | none => conns
    let emits :=
      match firstMatch emitLineM line with
      | some (sg, a) => emits ++ [EmitRec.mk path (i + 1) sg a]
      | none => emits
    (sigs, conns, emits)

/-- Collect signals/connections/emissions over the corpus. -/
def collectSignalFlow (files : List SrcFile) :
    List SigDeclRec × List ConnRec × List EmitRec :=
  files.foldl
    (fun st f => (enumLines 0 [] (splitLines f.2)).foldl (sfLine f.1) st)
    ([], [], [])

/-- One `flowGraph` entry. -/
structure FlowEntry where
  definedIn : Str
  connectedTo : List (Str × Str)
  emittedFrom : List (Str × Nat)
deriving DecidableEq, Repr

/-- Lookup in the flow graph (JS object property read). -/
def lookupFG (n : Str) : List (Str × FlowEntry) → Option FlowEntry
  | [] => none
  | (k, e) :: rest => if k = n then some e else lookupFG n rest

/-- Attach a connection to the entry of its signal name, when present. -/
def fgAddConn (g : List (Str × FlowEntry)) (c : ConnRec) : List (Str × FlowEntry) :=
  g.map (fun kv =>
    (kv.1,
      if kv.1 = c.signal then
        { kv.2 with connectedTo := kv.2.connectedTo ++ [(c.file, c.handler)] }
      else kv.2))

/-- Attach an emission to the entry of its signal name, when present. -/
def fgAddEmit (g : List (Str × FlowEntry)) (e : EmitRec) : List (Str × FlowEntry) :=
  g.map (fun kv =>
    (kv.1,
      if kv.1 = e.signal then
        { kv.2 with emittedFrom := kv.2.emittedFrom ++ [(e.file, e.line)] }
      else kv.2))

/-- Build `flowGraph`: one entry per declared signal name (first
declaration wins for `defined_in`), then attach connections and
emissions whose name has an entry. -/
def buildFlowGraph (sigs : List SigDeclRec) (conns : List ConnRec)
    (emits : List EmitRec) : List (Str × FlowEntry) :=
  let g0 := sigs.foldl
    (fun g s =>
      if (lookupFG s.name g).isSome then g
      else g ++ [(s.name, FlowEntry.mk s.file [] [])])
    []
  let g1 := conns.foldl fgAddConn g0
  emits.foldl fgAddEmit g1

/-- Result of `analyzeSignalFlow` (the JSON's `all_connections` and
`all_emissions` are the `connections`/`emissions` lists themselves). -/
structure SignalFlowResult where
  signals : List SigDeclRec
  connections : List ConnRec
  emissions : List EmitRec
  flowGraph : List (Str × FlowEntry)
  orphanSignals : List SigDeclRec
deriving Repr

/-- The signal-flow analyzer over readable files. -/
def analyzeSignalFlowCore (files : List SrcFile) : SignalFlowResult :=
  let (sigs, conns, emits) := collectSignalFlow files
  let g := buildFlowGraph sigs conns emits
  { signals := sigs, connections := conns, emissions := emits, flowGraph := g,
    orphanSignals := sigs.filter (fun s =>
      match lookupFG s.name g with
      | some f => f.connectedTo.isEmpty && f.emittedFrom.isEmpty
      | none => false) }

/-!
### Autoload dependency graph (`analyzeAutoloads`)
-/

/-- An autoload registry entry: name and its source-file text when the
file exists (`none` models a missing file, skipped by the `existsSync`
guard). -/
structure Autoload where
  name : Str
  content : Option Str
deriving Repr

/-- Whole-word test `new RegExp("\\b" + name + "\\b").test(content)` for
the `\w+`-shaped autoload names. -/
def wordOccursF (w : Str) : Nat → Option Char → Str → Bool
  | 0, _, _ => false
  | _ + 1, _, [] => false
  | fuel + 1, prev, c :: rest =>
    (!prevIsWord prev && w.isPrefixOf (c :: rest) &&
      (match (c :: rest).drop w.length with
       | [] => true
       | d :: _ => !isWordChar d)) ||
    wordOccursF w fuel (some c) rest

/-- Whole-word occurrence over a whole content string. -/
def wordOccurs (w : Str) (content : Str) : Bool :=
  wordOccursF w (content.length + 1) none content

/-- `array.push(v)` on a JS object field: fails (TypeError on
`undefined.push`) when the key has never been initialized. -/
def mapPush (k v : Str) : List (Str × List Str) → Option (List (Str × List Str))
  | [] => none
  | (k', vs) :: rest =>
    if k' = k then some ((k', vs ++ [v]) :: rest)
    else (mapPush k v rest).map (fun m => (k', vs) :: m)

/-- Object property read with `|| []` / `?.` default. -/
def lookupD (m : List (Str × List Str)) (k : Str) : List Str :=
  match m with
  | [] => []
  | (k', vs) :: rest => if k' = k then vs else lookupD rest k

/-- The inner loop over `other` autoloads for one autoload `aname` whose
content is `c`: a reference pushes onto `dependencies[aname]` (always
initialized) and `dependents[other]`, which throws when `other` has not
been processed yet. -/
def autoloadRefsGo (aname : Str) (c : Str) :
    List Autoload → List (Str × List Str) × List (Str × List Str) →
    Except Unit (List (Str × List Str) × List (Str × List Str))
  | [], st => .ok st
  | o :: os, (dm, tm) =>
    if o.name ≠ aname ∧ wordOccurs o.name c then
      match mapPush aname o.name dm with
      | none => .error ()
      | some dm' =>
        match mapPush o.name aname tm with
        | none => .error ()
        | some tm' => autoloadRefsGo aname c os (dm', tm')
    else autoloadRefsGo aname c os (dm, tm)

/-- The outer dependency-collection loop of `analyzeAutoloads`. -/
def buildAutoloadDeps (all : List Autoload) :
    List Autoload → List (Str × List Str) × List (Str × List Str) →
    Except Unit (List (Str × List Str) × List (Str × List Str))
  | [], st => .ok st
  | a :: rest, (dm, tm) =>
    let dm := mapSet a.name [] dm
    let tm := mapSet a.name [] tm
    match a.content with
    | none => buildAutoloadDeps all rest (dm, tm)
    | some c =>
      match autoloadRefsGo a.name c all (dm, tm) with
      | .ok st' => buildAutoloadDeps all rest st'
      | .error e => .error e

/-- JS string comparison (UTF-16 code-unit lexicographic order, which is
code-point order on the BMP names in scope), as used by `Array.sort()`. -/
def jsLtStr : Str → Str → Bool
  | [], [] => false
  | [], _ :: _ => true
  | _ :: _, [] => false
  | a :: as_, b :: bs =>
    if a.toNat < b.toNat then true
    else if b.toNat < a.toNat then false
    else jsLtStr as_ bs

/-- `[a, b].sort()` for two strings (stable: kept in order when equal). -/
def sortPair (a b : Str) : Str × Str :=
  if jsLtStr b a then (b, a) else (a, b)

/-- The circular-dependency (mutual pair) detection loop. -/
def circularOf (autoloads : List Autoload) (dm : List (Str × List Str)) :
    List (Str × Str) :=
  autoloads.foldl
    (fun acc a =>
      (lookupD dm a.name).foldl
        (fun acc2 dep =>
          if (lookupD dm dep).contains a.name then
            let pr := sortPair a.name dep
            if acc2.any (fun cd => cd.1 = pr.1 ∧ cd.2 = pr.2) then acc2
            else acc2 ++ [pr]
          else acc2)
        acc)
    []

/-- Depth-first visit of `suggestLoadOrder`, with explicit fuel (the
recursion depth is bounded by the number of autoload names, and the fuel
passed by `suggestLoadOrder` exceeds it). Note the `order.unshift(name)`:
a finished node is prepended. -/
def visitLoad (deps : List (Str × List Str)) :
    Nat → Str → List Str × List Str × List Str → List Str × List Str × List Str
  | 0, _, st => st
  | fuel + 1, name, (order, visited, temp) =>
    if name ∈ temp then (order, visited, temp)
    else if name ∈ visited then (order, visited, temp)
    else
      let st1 := (order, visited, name :: temp)
      let (o2, v2, t2) :=
        (lookupD deps name).foldl (fun st d => visitLoad deps fuel d st) st1
      (name :: o2, name :: v2, t2.erase name)

/-- `suggestLoadOrder`: depth-first postorder with `unshift`. -/
def suggestLoadOrder (names : List Str) (deps : List (Str × List Str)) : List Str :=
  (names.foldl (fun st n => visitLoad deps (names.length + 1) n st) ([], [], [])).1

/-- Result of `analyzeAutoloads` past the registry parsing. -/
structure AutoloadResult where
  dependencies : List (Str × List Str)
  dependents : List (Str × List Str)
  circular : List (Str × Str)
  loadOrder : List Str
deriving Repr

/-- `analyzeAutoloads` on a given registry; `.error ()` models the
uncaught TypeError thrown by `dependents[other.name].push(...)` when an
autoload references a later-listed autoload. -/
def analyzeAutoloads (autoloads : List Autoload) : Except Unit AutoloadResult :=
  (buildAutoloadDeps autoloads autoloads ([], [])).map
    (fun st =>
      { dependencies := st.1, dependents := st.2,
        circular := circularOf autoloads st.1,
        loadOrder := suggestLoadOrder (autoloads.map (fun a => a.name)) st.1 })

/-!
### Duplication normalizer and hash (`normalizeCode` / `hashCode`)
-/

/-- JS `replace(/\s+/g, " ")`: collapse each maximal whitespace run into a
single space.  The boolean tracks whether the previous character was
whitespace. -/
def collapseWsGo : Bool → Str → Str
  | _, [] => []
  | inRun, c :: rest =>
    if isWs c then
      if inRun then collapseWsGo true rest else ' ' :: collapseWsGo true rest
    else c :: collapseWsGo false rest

/-- Collapse whitespace runs. -/
def collapseWs (s : Str) : Str := collapseWsGo false s

/-- JS string redaction `replace` with the `"[^"]*"` pattern: each
double-quoted literal becomes an empty pair of quotes; an unmatched
opening quote is left untouched. -/
def strRedactF : Nat → Str → Str
  | 0, s => s
  | _ + 1, [] => []
  | fuel + 1, c :: rest =>
    if c = '"' then
      if rest.contains '"' then
        '"' :: '"' :: strRedactF fuel ((rest.dropWhile (fun d => !(d = '"'))).drop 1)
      else c :: rest
    else c :: strRedactF fuel rest

/-- Redact double-quoted string literals. -/
def strRedact (s : Str) : Str := strRedactF s.length s

/-- JS `replace(/\d+/g, "N")`: each maximal digit run becomes `N`. -/
def numRedactGo : Bool → Str → Str
  | _, [] => []
  | inRun, c :: rest =>
    if c.isDigit then
      if inRun then numRedactGo true rest else 'N' :: numRedactGo true rest
    else c :: numRedactGo false rest

/-- Redact integer literals. -/
def numRedact (s : Str) : Str := numRedactGo false s

/-- The keep-filter of `normalizeCode`: `l && !l.startsWith("#")` on the
trimmed line. -/
def normKeep (l : Str) : Bool :=
  !(l.isEmpty) && !(("#".toList).isPrefixOf l)

/-- `normalizeCode`: trim, drop blank and comment lines, collapse
whitespace, redact string and integer literals, join with newlines. -/
def normalizeCode (lines : List Str) : Str :=
  List.intercalate ("\n".toList)
    ((((lines.map jsTrim).filter normKeep).map collapseWs).map
      (fun l => numRedact (strRedact l)))

/-- Coerce to a 32-bit signed integer (the `| 0` / `&` semantics of JS
bitwise operators). -/
def toInt32 (n : Int) : Int :=
  (n + 2 ^ 31) % 2 ^ 32 - 2 ^ 31

/-- One step of `hashCode`: `hash = ((hash << 5) - hash) + charCode;
hash = hash & hash`. -/
def hashStep (h : Int) (c : Char) : Int :=
  toInt32 (toInt32 (h * 32) - h + c.toNat)

/-- JS `Number.prototype.toString(16)` on a 32-bit integer. -/
def intToHex (i : Int) : Str :=
  if i < 0 then '-' :: Nat.toDigits 16 i.natAbs else Nat.toDigits 16 i.toNat

/-- `hashCode`: the classic 32-bit string hash, rendered in hex. -/
def hashCode (s : Str) : Str :=
  intToHex (s.foldl hashStep 0)

/-!
### Complexity analyzer (`analyzeFunctionComplexity`)
-/

/-- Test `\bkw\b` for an all-word-character keyword `kw`. -/
def testWordF (w : Str) : Nat → Option Char → Str → Bool
  | 0, _, _ => false
  | _ + 1, _, [] => false
  | fuel + 1, prev, c :: rest =>
    (!prevIsWord prev && w.isPrefixOf (c :: rest) &&
      (match (c :: rest).drop w.length with
       | [] => true
       | d :: _ => !isWordChar d)) ||
    testWordF w fuel (some c) rest

/-- Whole-word keyword test over a line. -/
def testWord (w : Str) (s : Str) : Bool :=
  testWordF w (s.length + 1) none s

/-- Test `\?\s*[^:]+\s*:`: some `?` whose first following `:` is at
distance at least two (the greedy `\s*`/`[^:]+` backtracking reduces to
exactly this). -/
def ternTestGo : Str → Bool
  | [] => false
  | '?' :: rest =>
    (match rest with
     | [] => false
     | d :: _ => !(d = ':') && rest.contains ':') ||
    ternTestGo rest
  | _ :: rest => ternTestGo rest

/-- Ternary-conditional shape test. -/
def ternTest (s : Str) : Bool := ternTestGo s

/-- Complexity contribution of one (trimmed) line: one per matching
branching/loop/boolean keyword plus the ternary shape. -/
def lineComplexity (t : Str) : Nat :=
  (if testWord ("if".toList) t then 1 else 0) +
  (if testWord ("elif".toList) t then 1 else 0) +
  (if testWord ("else".toList) t then 1 else 0) +
  (if testWord ("for".toList) t then 1 else 0) +
  (if testWord ("while".toList) t then 1 else 0) +
  (if testWord ("match".toList) t then 1 else 0) +
  (if testWord ("and".toList) t then 1 else 0) +
  (if testWord ("or".toList) t then 1 else 0) +
  (if ternTest t then 1 else 0)

/-- Per-function complexity record. -/
structure FnComplexity where
  name : Str
  startLine : Nat
  complexity : Nat
deriving DecidableEq, Repr

/-- Regex `^func\s+(\w+)` on the trimmed line. -/
def funcHead (t : Str) : Option Str :=
  (litThenWord ("func".toList) t).map (fun pr => pr.1)

/-- The line loop of `analyzeFunctionComplexity`: a `func` head closes the
previous record and opens a new one at complexity 1; every line (the
header included) then adds its keyword count to the open record. -/
def afcGo : List (Nat × Str) → Option FnComplexity → List FnComplexity
  | [], cur =>
    (match cur with
     | some c => [c]
     | none => [])
  | (i, line) :: rest, cur =>
    let t := jsTrim line
    let (pushed, cur1) :=
      match funcHead t with
      | some nm =>
        ((match cur with
          | some c => [c]
          | none => []), some (FnComplexity.mk nm (i + 1) 1))
      | none => ([], cur)
    let cur2 :=
      match cur1 with
      | some c => some { c with complexity := c.complexity + lineComplexity t }
      | none => none
    pushed ++ afcGo rest cur2

/-- Enumerate lines with their zero-based index. -/
def enumIdx : Nat → List Str → List (Nat × Str)
  | _, [] => []
  | i, l :: rest => (i, l) :: enumIdx (i + 1) rest

/-- `analyzeFunctionComplexity` over one file content. -/
def analyzeFunctionComplexity (content : Str) : List FnComplexity :=
  afcGo (enumIdx 0 (splitLines content)) none

/-!
### Fallible-read wrappers (error semantics of the scans)
-/

/-- Read every file of a corpus where `none` content models a read that
throws (permission/IO error): the first failure aborts with the
uncaught exception. -/
def readAllF : List (Str × Option Str) → Except Unit (List SrcFile)
  | [] => .ok []
  | (_, none) :: _ => .error ()
  | (p, some c) :: rest => (readAllF rest).map (fun fs => (p, c) :: fs)

/-- `detectDeadCode` as invoked: `readFileSync` is not guarded, so a
failing read of any script or scene file rejects the whole call. -/
def detectDeadCodeRun (files scenes : List (Str × Option Str)) :
    Except Unit DeadCodeResult :=
  match readAllF files with
  | .error e => .error e
  | .ok fs =>
    match readAllF scenes with
    | .error e => .error e
    | .ok ss => .ok (detectDeadCode fs ss)

/-- State of a file on disk for `analyzeSignalFlow`: missing (existsSync
false), existing but unreadable (readFileSync throws), or readable. -/
inductive FileState where
  | absent : FileState
  | unreadable : FileState
  | readable : Str → FileState
deriving DecidableEq, Repr

/-- The per-file loop of `analyzeSignalFlow`: a missing file is skipped by
the `existsSync` guard; an unreadable existing file throws. -/
def collectReadable : List (Str × FileState) → Except Unit (List SrcFile)
  | [] => .ok []
  | (_, .absent) :: rest => collectReadable rest
  | (_, .unreadable) :: _ => .error ()
  | (p, .readable c) :: rest => (collectReadable rest).map (fun fs => (p, c) :: fs)

/-- `analyzeSignalFlow` as invoked on a list of files in their on-disk
states. -/
def analyzeSignalFlowRun (files : List (Str × FileState)) :
    Except Unit SignalFlowResult :=
  (collectReadable files).map analyzeSignalFlowCore

/-- Sanity of a matcher: a match consumes a nonempty chunk of the input
and reports its last character. -/
def MatcherOk (m : Matcher) : Prop :=
  ∀ prev s cap lc r, m prev s = some (cap, lc, r) →
    ∃ t, s = t ++ r ∧ t ≠ [] ∧ t.getLast? = some lc

/-- All names captured by the variable-declaration regex over a corpus. -/
def declVarNames (files : List SrcFile) : List Str :=
  files.flatMap (fun f =>
    (splitLines f.2).filterMap (fun l => (varDecl l).map (fun pr => pr.2)))

/-- All names captured by the signal-declaration regex over a corpus. -/
def declSigNames (files : List SrcFile) : List Str :=
  files.flatMap (fun f => (splitLines f.2).filterMap sigDecl)

/-- Invariant of an `allFunctions` entry: its key is `path::name` for a
declared, all-word-character name that the direct-call extractor also
captures from the same file, and the name passed the virtual-method and
`_on_` handler skips. -/
def FnEntryOk (files : List SrcFile) (kv : Str × FnInfo) : Prop :=
  ∃ p c name, (p, c) ∈ files ∧ kv.1 = keyOf p name ∧
    (∀ ch ∈ name, isWordChar ch = true) ∧ name ∈ scanAll directCallM c ∧
    virtualMethods.contains name = false ∧
    ("_on_".toList).isPrefixOf name = false

/-- Invariant of an `allVariables` entry. -/
def VarEntryOk (files : List SrcFile) (kv : Str × VarInfo) : Prop :=
  ∃ p c name, (p, c) ∈ files ∧ kv.1 = keyOf p name ∧
    (∀ ch ∈ name, isWordChar ch = true) ∧ name ∈ declVarNames files ∧
    (identStartHead name = true → name ∈ scanAll bareIdentM c)

/-- Invariant of an `allSignals` entry. -/
def SigEntryOk (files : List SrcFile) (kv : Str × SigInfo) : Prop :=
  ∃ p c name, (p, c) ∈ files ∧ kv.1 = keyOf p name ∧
    (∀ ch ∈ name, isWordChar ch = true) ∧ name ∈ declSigNames files ∧
    (identStartHead name = true → name ∈ scanAll bareIdentM c)

/-- The three invariants bundled. -/
def DeclsOk (files : List SrcFile) (d : Decls) : Prop :=
  (∀ e ∈ d.fns, FnEntryOk files e) ∧ (∀ e ∈ d.vars, VarEntryOk files e) ∧
  (∀ e ∈ d.sigs, SigEntryOk files e)

/-- The base graph built from the declarations. -/
def buildG0 (sigs : List SigDeclRec) : List (Str × FlowEntry) :=
  sigs.foldl
    (fun g s =>
      if (lookupFG s.name g).isSome then g
      else g ++ [(s.name, FlowEntry.mk s.file [] [])])
    []

/-- Readable contents of a list of on-disk file states: the files the
`existsSync` guard keeps and `readFileSync` then succeeds on. -/
def readableOf (l : List (Str × FileState)) : List SrcFile :=
  l.filterMap (fun f =>
    match f.2 with
    | FileState.readable c => some (f.1, c)
    | _ => none)

/-- The contents successfully read from a corpus with no failing file. -/
def okContents (l : List (Str × Option Str)) : List SrcFile :=
  l.filterMap (fun f => f.2.map (fun c => (f.1, c)))

/-!
### Concrete corpora for the end-to-end scenarios
-/

/-- Three-singleton registry: `Audio` references no other autoload,
`Game` references `Audio`, `UI` references `Game`. -/
def regC1 : List Autoload :=
  [⟨("Audio").toList, some (("extends Node\nfunc play():\n\tpass").toList)⟩,
   ⟨("Game").toList, some (("extends Node\nfunc _ready():\n\tAudio.play()").toList)⟩,
   ⟨("UI").toList, some (("extends Node\nfunc _ready():\n\tGame.start()").toList)⟩]

/-- Two singletons that reference each other (a mutual pair). -/
def regPair : List Autoload :=
  [⟨("A").toList, some (("uses B").toList)⟩,
   ⟨("B").toList, some (("uses A").toList)⟩]

/-- Three singletons forming a 3-cycle with no mutual pair. -/
def regCycle : List Autoload :=
  [⟨("A").toList, some (("uses B").toList)⟩,
   ⟨("B").toList, some (("uses C").toList)⟩,
   ⟨("C").toList, some (("uses A").toList)⟩]

/-- A small well-formed script corpus declaring one function, one signal
and one variable. -/
def demoCorpus : List SrcFile :=
  [(("game.gd").toList,
    ("func foo():\n\tpass\nsignal done\nvar x = 1").toList)]

/-- A corpus declaring a virtual method, a `_on_` signal handler and a
plain helper function. -/
def demoSkips : List SrcFile :=
  [(("a.gd").toList,
    ("func _ready():\n\tpass\nfunc _on_click():\n\tpass\nfunc helper():\n\tpass").toList)]

/-- A corpus whose single script path contains a colon, so the
`key.split` on the double colon mangles the recovered name. -/
def demoColon : List SrcFile :=
  [(("a::b.gd").toList, ("func helper():\n\tpass").toList)]

/-- A corpus declaring two signals, of which only `used` is emitted. -/
def demoOrphan : List SrcFile :=
  [(("game.gd").toList,
    ("signal lonely\nsignal used\nfunc _ready():\n\tused.emit()").toList)]

/-- A corpus with one declared signal that is both connected and emitted,
plus a connection to the undeclared name `ghost`. -/
def demoFlow : List SrcFile :=
  [(("game.gd").toList,
    ("signal sig_a\nfunc _ready():\n\tsig_a.connect(handler)\n\tghost.connect(handler2)\n\tsig_a.emit()").toList)]

/-- The flow-graph entry built for `sig_a` over `demoFlow`. -/
def fentry8 : FlowEntry :=
  ⟨("game.gd").toList,
   [(("game.gd").toList, ("handler").toList)],
   [(("game.gd").toList, 5)]⟩

/-- Two-function file of the complexity end-to-end scenario. -/
def demoComplexity : Str :=
  ("func simple():\n\tif a: return 1 else: return 2\nfunc other():\n\tfor i in range(3): if i: pass").toList

/-!
### Character-class and low-level parsing lemmas
-/

lemma not_word_of_ws {c : Char} (h : isWs c = true) : isWordChar c = false := by
  unfold isWs at h
  simp only [Bool.or_eq_true, decide_eq_true_eq] at h
  rcases h with ((((h | h) | h) | h) | h) | h <;> subst h <;> decide

lemma word_of_identStart {c : Char} (h : isIdentStart c = true) : isWordChar c = true := by
  unfold isIdentStart at h
  unfold isWordChar Char.isAlphanum
  simp only [Bool.or_eq_true, decide_eq_true_eq] at h ⊢
  rcases h with h | h
  · exact Or.inl (Or.inl h)
  · exact Or.inr h

lemma word_lparen_false : isWordChar '(' = false := by decide

lemma word_newline_false : isWordChar '\n' = false := by decide

lemma stripPre_eq : ∀ {pre s r : Str}, stripPre pre s = some r → s = pre ++ r := by
  intro pre
  induction pre with
  | nil =>
    intro s r h
    simp only [stripPre, Option.some.injEq] at h
    simp [h]
  | cons p ps ih =>
    intro s r h
    cases s with
    | nil => simp [stripPre] at h
    | cons c cs =>
      by_cases hc : c = p
      · simp only [stripPre, hc, if_pos] at h
        simpa [hc] using congrArg (List.cons p) (ih h)
      · simp [stripPre, hc] at h

lemma parseWsPlus_eq {s r : Str} (h : parseWsPlus s = some r) :
    ∃ ws1, s = ws1 ++ r ∧ ws1 ≠ [] ∧ ∀ c ∈ ws1, isWs c = true := by
  unfold parseWsPlus at h
  by_cases hw : s.takeWhile isWs = []
  · simp [hw] at h
  · simp only [hw, if_neg, reduceIte, Option.some.injEq] at h
    refine ⟨s.takeWhile isWs, ?_, hw, fun c hc => List.mem_takeWhile_imp hc⟩
    rw [← h, List.takeWhile_append_dropWhile]

lemma parseWordPlus_eq {s w r : Str} (h : parseWordPlus s = some (w, r)) :
    s = w ++ r ∧ w ≠ [] ∧ (∀ c ∈ w, isWordChar c = true) ∧
      (∀ d, r.head? = some d → isWordChar d = false) := by
  unfold parseWordPlus at h
  by_cases hw : s.takeWhile isWordChar = []
  · simp [hw] at h
  · simp only [hw, if_neg, reduceIte, Option.some.injEq, Prod.mk.injEq] at h
    obtain ⟨hw1, hr⟩ := h
    subst hw1; subst hr
    refine ⟨(List.takeWhile_append_dropWhile _ _).symm, hw,
      fun c hc => List.mem_takeWhile_imp hc, fun d hd => ?_⟩
    have := List.head?_dropWhile_not isWordChar s
    rw [hd] at this
    exact this

lemma takeWhile_eq_nil_of_head {p : Char → Bool} {s : Str}
    (h : ∀ d, s.head? = some d → p d = false) : s.takeWhile p = [] := by
  cases s with
  | nil => rfl
  | cons c cs => simp [List.takeWhile_cons, h c rfl]

lemma dropWhile_eq_self_of_head {p : Char → Bool} {s : Str}
    (h : ∀ d, s.head? = some d → p d = false) : s.dropWhile p = s := by
  cases s with
  | nil => rfl
  | cons c cs => simp [List.dropWhile_cons, h c rfl]

/-!
### Decomposition lemmas for `splitLines` and `splitCC`
-/

lemma splitLines_ne_nil : ∀ s : Str, splitLines s ≠ [] := by
  intro s
  cases s with
  | nil => simp [splitLines]
  | cons c rest =>
    by_cases hc : c = '\n'
    · simp [splitLines, hc]
    · simp only [splitLines, hc, reduceIte]
      cases h : splitLines rest <;> simp

lemma splitLines_head_decomp :
    ∀ (s l0 : Str) (ls : List Str), splitLines s = l0 :: ls →
      ∃ b, s = l0 ++ b ∧ (b = [] ∨ ∃ b', b = '\n' :: b') := by
  intro s
  induction s with
  | nil =>
    intro l0 ls h
    simp only [splitLines, List.cons.injEq] at h
    exact ⟨[], by simp [h.1.symm], Or.inl rfl⟩
  | cons c rest ih =>
    intro l0 ls h
    by_cases hc : c = '\n'
    · subst hc
      simp only [splitLines, reduceIte, List.cons.injEq] at h
      exact ⟨'\n' :: rest, by simp [h.1.symm], Or.inr ⟨rest, rfl⟩⟩
    · simp only [splitLines, hc, reduceIte] at h
      cases hr : splitLines rest with
      | nil => exact absurd hr (splitLines_ne_nil rest)
      | cons m0 ms =>
        rw [hr] at h
        obtain ⟨b, hb, hok⟩ := ih m0 ms hr
        obtain ⟨h1, _⟩ := List.cons.inj h
        exact ⟨b, by simp [← h1, hb], hok⟩

lemma splitLines_mem_decomp :
    ∀ (s l : Str), l ∈ splitLines s →
      ∃ a b, s = a ++ l ++ b ∧ (b = [] ∨ ∃ b', b = '\n' :: b') := by
  intro s
  induction s with
  | nil =>
    intro l h
    simp only [splitLines, List.mem_singleton] at h
    exact ⟨[], [], by simp [h], Or.inl rfl⟩
  | cons c rest ih =>
    intro l h
    by_cases hc : c = '\n'
    · subst hc
      simp only [splitLines, reduceIte, List.mem_cons] at h
      rcases h with h | h
      · exact ⟨[], '\n' :: rest, by simp [h], Or.inr ⟨rest, rfl⟩⟩
      · obtain ⟨a, b, hab, hok⟩ := ih l h
        exact ⟨'\n' :: a, b, by simp [hab], hok⟩
    · simp only [splitLines, hc, reduceIte] at h
      cases hr : splitLines rest with
      | nil => exact absurd hr (splitLines_ne_nil rest)
      | cons m0 ms =>
        rw [hr] at h
        rcases List.mem_cons.mp h with h | h
        · obtain ⟨b, hb, hok⟩ := splitLines_head_decomp rest m0 ms hr
          exact ⟨[], b, by simp [h, hb], hok⟩
        · have hmem : l ∈ splitLines rest := by
            rw [hr]; exact List.mem_cons_of_mem _ h
          obtain ⟨a, b, hab, hok⟩ := ih l hmem
          exact ⟨c :: a, b, by simp [hab], hok⟩

lemma splitCC_no_colon : ∀ s : Str, ':' ∉ s → splitCC s = [s] := by
  intro s
  induction s with
  | nil => intro _; rfl
  | cons c rest ih =>
    intro h
    have hc : c ≠ ':' := fun hh => h (hh ▸ List.mem_cons_self c rest)
    have hrest : ':' ∉ rest := fun hh => h (List.mem_cons_of_mem c hh)
    rw [splitCC.eq_def]
    split
    · simp_all
    · rename_i heq; rw [List.cons.injEq] at heq; exact absurd heq.1 hc
    · rename_i x xs heq
      obtain ⟨h1, h2⟩ := List.cons.inj heq
      subst h1; subst h2
      rw [ih hrest]

lemma splitCC_keyOf {p n : Str} (hp : ':' ∉ p) (hn : ':' ∉ n) :
    splitCC (keyOf p n) = [p, n] := by
  unfold keyOf
  induction p with
  | nil =>
    show splitCC (':' :: ':' :: n) = [[], n]
    rw [splitCC.eq_def]
    simp [splitCC_no_colon n hn]
  | cons a p' ih =>
    have ha : a ≠ ':' := fun hh => hp (hh ▸ List.mem_cons_self a p')
    have hp' : ':' ∉ p' := fun hh => hp (List.mem_cons_of_mem a hh)
    show splitCC (a :: (p' ++ ("::".toList) ++ n)) = [a :: p', n]
    rw [splitCC.eq_def]
    split
    · rename_i heq; exact absurd heq (by simp)
    · rename_i heq; rw [List.cons.injEq] at heq; exact absurd heq.1 ha
    · rename_i x xs heq
      obtain ⟨h1, h2⟩ := List.cons.inj heq
      subst h1
      rw [← h2, ih hp']

lemma splitCCsecond_keyOf {p n : Str} (hp : ':' ∉ p) (hn : ':' ∉ n) :
    splitCCsecond (keyOf p n) = n := by
  unfold splitCCsecond
  rw [splitCC_keyOf hp hn]

/-!
### Membership in the scan of a content string

A declared name is found by `matchAll` whenever the matcher fires at the
declaration site and no earlier-starting match can consume past that
site: the scanner either stops exactly there (and the deterministic
matcher produces the name) or has not reached it yet.
-/

lemma scanAllF_mem {m : Matcher} (hok : MatcherOk m) {content pt st name : Str}
    {lc0 : Char} {r0 : Str}
    (hsplit : content = pt ++ st)
    (hmatch : m pt.getLast? st = some (name, lc0, r0))
    (hc : ∀ pre suf cap lc r, content = pre ++ suf → pre.length < pt.length →
      m pre.getLast? suf = some (cap, lc, r) →
      content.length - r.length ≤ pt.length) :
    ∀ fuel (pre suf : Str), content = pre ++ suf → pre.length ≤ pt.length →
      suf.length ≤ fuel → name ∈ scanAllF m fuel pre.getLast? suf := by
  intro fuel
  induction fuel with
  | zero =>
    intro pre suf hps hle hfl
    interval_cases hsl : suf.length
    · have hsuf : suf = [] := List.length_eq_zero.mp hsl
      subst hsuf
      have hlen : pre.length = pt.length + st.length := by
        have := congrArg List.length (hps.symm.trans hsplit)
        simpa [List.length_append] using this
      have hst : st.length = 0 := by omega
      have hstn : st = [] := List.length_eq_zero.mp hst
      subst hstn
      obtain ⟨t, ht, htne, _⟩ := hok _ _ _ _ _ hmatch
      cases t with
      | nil => exact absurd rfl htne
      | cons a as => simp at ht
  | succ fuel ih =>
    intro pre suf hps hle hfl
    cases suf with
    | nil =>
      have hlen : pre.length = pt.length + st.length := by
        have := congrArg List.length (hps.symm.trans hsplit)
        simpa [List.length_append] using this
      have hst : st = [] := List.length_eq_zero.mp (by omega)
      subst hst
      obtain ⟨t, ht, htne, _⟩ := hok _ _ _ _ _ hmatch
      cases t with
      | nil => exact absurd rfl htne
      | cons a as => simp at ht
    | cons c rest =>
      by_cases hl : pre.length = pt.length
      · have hpp : pre = pt ∧ c :: rest = st :=
          List.append_inj (hps.symm.trans hsplit) hl
        obtain ⟨hpre, hsuf⟩ := hpp
        subst hpre
        rw [← hsuf] at hmatch
        simp only [scanAllF, hmatch]
        exact List.mem_cons_self _ _
      · have hlt : pre.length < pt.length := lt_of_le_of_ne hle hl
        cases hm : m pre.getLast? (c :: rest) with
        | none =>
          simp only [scanAllF, hm]
          have hps' : content = (pre ++ [c]) ++ rest := by simp [hps]
          have hlast : (pre ++ [c]).getLast? = some c := List.getLast?_concat pre
          have := ih (pre ++ [c]) rest hps'
            (by simp [List.length_append]; omega)
            (by simpa using Nat.le_of_succ_le_succ hfl)
          rwa [hlast] at this
        | some trip =>
          obtain ⟨cap, lc, r⟩ := trip
          simp only [scanAllF, hm]
          obtain ⟨t, ht, htne, htl⟩ := hok _ _ _ _ _ hm
          have hend := hc pre (c :: rest) cap lc r hps hlt hm
          have hps' : content = (pre ++ t) ++ r := by
            rw [hps, ht]; simp
          have hlen1 : content.length = pre.length + t.length + r.length := by
            rw [hps']; simp [List.length_append]; omega
          have hlen2 : (pre ++ t).length ≤ pt.length := by
            simp only [List.length_append]; omega
          have hlast : (pre ++ t).getLast? = some lc := by
            rw [List.getLast?_append_of_ne_nil pre htne, htl]
          have hfl' : r.length ≤ fuel := by
            have := congrArg List.length ht
            simp only [List.length_cons, List.length_append] at this
            simp only [List.length_cons] at hfl
            have htpos : 1 ≤ t.length := by
              cases t with
              | nil => exact absurd rfl htne
              | cons _ _ => simp
            omega
          have := ih (pre ++ t) r hps' hlen2 hfl'
          rw [hlast] at this
          exact List.mem_cons_of_mem _ this

/-- Top-level form of the scan-membership lemma. -/
lemma scanAll_mem {m : Matcher} (hok : MatcherOk m) {content pt st name : Str}
    {lc0 : Char} {r0 : Str}
    (hsplit : content = pt ++ st)
    (hmatch : m pt.getLast? st = some (name, lc0, r0))
    (hc : ∀ pre suf cap lc r, content = pre ++ suf → pre.length < pt.length →
      m pre.getLast? suf = some (cap, lc, r) →
      content.length - r.length ≤ pt.length) :
    name ∈ scanAll m content := by
  have h0 : (([] : Str)).getLast? = none := rfl
  have := scanAllF_mem hok hsplit hmatch hc content.length [] content
    (by simp) (by simp) (le_refl _)
  rw [h0] at this
  exact this

lemma getLast?_eq_getLastD {t : Str} (h : t ≠ []) (x : Char) :
    t.getLast? = some (t.getLastD x) := by
  cases ht : t.getLast? with
  | none =>
    rw [List.getLast?_eq_getElem?] at ht
    rcases List.getElem?_eq_none_iff.mp ht with hlen
    cases t with
    | nil => exact absurd rfl h
    | cons a as => simp at hlen
  | some a => simp [List.getLastD_eq_getLast?, ht]

/-!
### Structure of the `directCallM` and `bareIdentM` matchers
-/

lemma directCallM_shape {prev : Option Char} {s cap : Str} {lc : Char} {r : Str}
    (h : directCallM prev s = some (cap, lc, r)) :
    ∃ ws', s = cap ++ ws' ++ '(' :: r ∧ cap ≠ [] ∧
      (∀ ch ∈ cap, isWordChar ch = true) ∧ (∀ ch ∈ ws', isWs ch = true) ∧
      lc = '(' := by
  unfold directCallM at h
  by_cases hp : prevIsWord prev
  · simp [hp] at h
  · simp only [hp, Bool.false_eq_true, reduceIte] at h
    by_cases hw : s.takeWhile isWordChar = []
    · simp [hw] at h
    · simp only [hw, reduceIte] at h
      split at h
      · rename_i rest hdd
        obtain ⟨h1, h2, h3⟩ : s.takeWhile isWordChar = cap ∧ '(' = lc ∧ rest = r := by
          simpa using h
        refine ⟨(s.dropWhile isWordChar).takeWhile isWs, ?_, h1 ▸ hw, ?_, ?_, h2.symm⟩
        · have e2 : (s.dropWhile isWordChar).takeWhile isWs ++ '(' :: r =
              s.dropWhile isWordChar := by
            rw [← h3, ← hdd, List.takeWhile_append_dropWhile]
          rw [List.append_assoc, e2, ← h1, List.takeWhile_append_dropWhile]
        · intro ch hch; exact List.mem_takeWhile_imp (h1 ▸ hch)
        · intro ch hch; exact List.mem_takeWhile_imp hch
      · exact absurd h (by simp)

lemma directCallM_ok : MatcherOk directCallM := by
  intro prev s cap lc r h
  obtain ⟨ws', hs, hne, _, _, hlc⟩ := directCallM_shape h
  refine ⟨cap ++ ws' ++ ['('], ?_, by simp, ?_⟩
  · rw [hs]; simp
  · rw [hlc, List.append_assoc, List.getLast?_append_of_ne_nil _ (by simp)]
    simp [List.getLast?_concat]

lemma bareIdentM_shape {prev : Option Char} {s cap : Str} {lc : Char} {r : Str}
    (h : bareIdentM prev s = some (cap, lc, r)) :
    s = cap ++ r ∧ cap ≠ [] ∧ (∀ ch ∈ cap, isWordChar ch = true) ∧
      lc = cap.getLastD ' ' := by
  unfold bareIdentM at h
  by_cases hp : prevIsWord prev
  · simp [hp] at h
  · simp only [hp, Bool.false_eq_true, reduceIte] at h
    cases s with
    | nil => simp at h
    | cons c cs =>
      by_cases hi : isIdentStart c
      · simp only [hi, reduceIte, Option.some.injEq, Prod.mk.injEq] at h
        obtain ⟨h1, h2, h3⟩ := h
        have hcapne : cap ≠ [] := by
          rw [← h1]
          simp [List.takeWhile_cons, word_of_identStart hi]
        refine ⟨?_, hcapne, ?_, by rw [← h1]; exact h2.symm⟩
        · rw [← h1, ← h3, List.takeWhile_append_dropWhile]
        · intro ch hch; exact List.mem_takeWhile_imp (h1 ▸ hch)
      · simp [hi] at h

lemma bareIdentM_ok : MatcherOk bareIdentM := by
  intro prev s cap lc r h
  obtain ⟨hs, hne, _, hlc⟩ := bareIdentM_shape h
  exact ⟨cap, hs, hne, by rw [hlc]; exact getLast?_eq_getLastD hne ' '⟩

lemma getLast?_mem {t : Str} {x : Char} (h : t.getLast? = some x) : x ∈ t := by
  rw [List.getLast?_eq_getElem?] at h
  exact List.getElem?_mem h

lemma getElem?_chunk {A w z : Str} {i : Nat} (hi : i < w.length) :
    (A ++ (w ++ z))[A.length + i]? = w[i]? := by
  rw [List.getElem?_append_right (by omega)]
  simp [List.getElem?_append_left hi]

/-!
### No earlier match overruns a declaration site

At a declaration the name is preceded by a whitespace character; a match
of the direct-call or bare-identifier pattern starting earlier consists of
word characters, then whitespace, then `(` (resp. word characters only),
so it cannot cover the position of the name's first character.
-/

lemma directCall_no_overlap {content pt : Str} {wc nc : Char}
    (hws : content[pt.length - 1]? = some wc) (hwsw : isWs wc = true)
    (hwd : content[pt.length]? = some nc) (hnw : isWordChar nc = true)
    (hpt : 1 ≤ pt.length) :
    ∀ pre suf cap lc r, content = pre ++ suf → pre.length < pt.length →
      directCallM pre.getLast? suf = some (cap, lc, r) →
      content.length - r.length ≤ pt.length := by
  intro pre suf cap lc r hps hlt hm
  obtain ⟨ws1, hs, hcne, hcw, hww, _⟩ := directCallM_shape hm
  by_contra hgt
  push_neg at hgt
  have hc1 : content = pre ++ (cap ++ (ws1 ++ '(' :: r)) := by
    rw [hps, hs]; simp [List.append_assoc]
  have hc2 : content = (pre ++ cap) ++ (ws1 ++ '(' :: r) := by rw [hc1]; simp
  have hc3 : content = ((pre ++ cap) ++ ws1) ++ '(' :: r := by rw [hc1]; simp
  have hL : content.length =
      pre.length + cap.length + ws1.length + 1 + r.length := by
    rw [hc3]; simp [List.length_append]; omega
  have hcp : 1 ≤ cap.length := by
    cases cap with
    | nil => exact absurd rfl hcne
    | cons _ _ => simp
  by_cases h1 : pt.length - 1 < pre.length + cap.length
  · -- the previous character of the name would lie inside the word run
    have hi : pt.length - 1 - pre.length < cap.length := by omega
    have := getElem?_chunk (A := pre) (w := cap) (z := ws1 ++ '(' :: r) hi
    have heq : pre.length + (pt.length - 1 - pre.length) = pt.length - 1 := by omega
    rw [heq] at this
    rw [← hc1] at this
    rw [hws] at this
    have hmem : wc ∈ cap := List.getElem?_mem this.symm
    have := hcw wc hmem
    rw [not_word_of_ws hwsw] at this
    exact absurd this (by simp)
  · by_cases h2 : pt.length < pre.length + cap.length + ws1.length
    · -- the name's first character would lie inside the whitespace run
      have hi : pt.length - (pre.length + cap.length) < ws1.length := by omega
      have := getElem?_chunk (A := pre ++ cap) (w := ws1) (z := '(' :: r) hi
      have hA : (pre ++ cap).length = pre.length + cap.length := by
        simp [List.length_append]
      rw [hA] at this
      have heq : pre.length + cap.length + (pt.length - (pre.length + cap.length)) =
          pt.length := by omega
      rw [heq] at this
      rw [← hc2] at this
      rw [hwd] at this
      have hmem : nc ∈ ws1 := List.getElem?_mem this.symm
      have := hww nc hmem
      rw [not_word_of_ws this] at hnw
      exact absurd hnw (by simp)
    · -- the name's first character would be the `(`
      have hp : pt.length = pre.length + cap.length + ws1.length := by omega
      have hA : ((pre ++ cap) ++ ws1).length =
          pre.length + cap.length + ws1.length := by
        simp [List.length_append]; omega
      have : content[pt.length]? = some '(' := by
        rw [hc3, hp, ← hA, List.getElem?_append_right (le_refl _)]
        simp
      rw [hwd] at this
      have : nc = '(' := by simpa using this
      rw [this] at hnw
      exact absurd hnw (by decide)

lemma bareIdent_no_overlap {content pt : Str} {wc : Char}
    (hws : content[pt.length - 1]? = some wc) (hwsw : isWs wc = true)
    (hpt : 1 ≤ pt.length) :
    ∀ pre suf cap lc r, content = pre ++ suf → pre.length < pt.length →
      bareIdentM pre.getLast? suf = some (cap, lc, r) →
      content.length - r.length ≤ pt.length := by
  intro pre suf cap lc r hps hlt hm
  obtain ⟨hs, hcne, hcw, _⟩ := bareIdentM_shape hm
  by_contra hgt
  push_neg at hgt
  have hc1 : content = pre ++ (cap ++ r) := by rw [hps, hs]
  have hL : content.length = pre.length + cap.length + r.length := by
    rw [hc1]; simp [List.length_append]; omega
  have hi : pt.length - 1 - pre.length < cap.length := by omega
  have := getElem?_chunk (A := pre) (w := cap) (z := r) hi
  have heq : pre.length + (pt.length - 1 - pre.length) = pt.length - 1 := by omega
  rw [heq] at this
  rw [← hc1] at this
  rw [hws] at this
  have hmem : wc ∈ cap := List.getElem?_mem this.symm
  have := hcw wc hmem
  rw [not_word_of_ws hwsw] at this
  exact absurd this (by simp)

/-!
### A declaration site is found by the scan
-/

lemma head?_append_ws_paren {ws2 tail : Str} (hws2 : ∀ c ∈ ws2, isWs c = true) :
    ∀ d, ((ws2 ++ '(' :: tail)).head? = some d → isWordChar d = false := by
  intro d hd
  cases ws2 with
  | nil =>
    simp at hd
    rw [← hd]; decide
  | cons c cs =>
    simp at hd
    rw [← hd]
    exact not_word_of_ws (hws2 c (List.mem_cons_self c cs))

lemma directCall_scan_mem {content A ws1 name ws2 tail : Str}
    (hcontent : content = A ++ ws1 ++ name ++ ws2 ++ '(' :: tail)
    (hws1ne : ws1 ≠ []) (hws1 : ∀ c ∈ ws1, isWs c = true)
    (hnne : name ≠ []) (hnw : ∀ c ∈ name, isWordChar c = true)
    (hws2 : ∀ c ∈ ws2, isWs c = true) :
    name ∈ scanAll directCallM content := by
  obtain ⟨wc, hwc⟩ : ∃ wc, ws1.getLast? = some wc := by
    cases hwl : ws1.getLast? with
    | none =>
      rw [List.getLast?_eq_getElem?, List.getElem?_eq_none_iff] at hwl
      cases ws1 with
      | nil => exact absurd rfl hws1ne
      | cons _ _ => simp at hwl
    | some x => exact ⟨x, rfl⟩
  have hwcw : isWs wc = true := hws1 wc (getLast?_mem hwc)
  obtain ⟨nc, ncs, hname⟩ : ∃ nc ncs, name = nc :: ncs := by
    cases name with
    | nil => exact absurd rfl hnne
    | cons a as => exact ⟨a, as, rfl⟩
  have hncw : isWordChar nc = true := hnw nc (hname ▸ List.mem_cons_self nc ncs)
  set pt := A ++ ws1 with hpt
  have hsplit : content = pt ++ (name ++ ws2 ++ '(' :: tail) := by
    rw [hcontent, hpt]; simp
  have hptlast : pt.getLast? = some wc := by
    rw [hpt, List.getLast?_append_of_ne_nil A hws1ne, hwc]
  have hptlen : 1 ≤ pt.length := by
    rw [hpt]
    cases ws1 with
    | nil => exact absurd rfl hws1ne
    | cons _ _ => simp [List.length_append]; omega
  -- the matcher fires at the declaration site
  have hmatch : directCallM pt.getLast? (name ++ ws2 ++ '(' :: tail) =
      some (name, '(', tail) := by
    rw [hptlast]
    unfold directCallM
    have hprev : prevIsWord (some wc) = false := by
      simp [prevIsWord, not_word_of_ws hwcw]
    rw [hprev]
    simp only [Bool.false_eq_true, reduceIte]
    have htw : (name ++ ws2 ++ '(' :: tail).takeWhile isWordChar = name := by
      rw [List.append_assoc, List.takeWhile_append_of_pos hnw,
        takeWhile_eq_nil_of_head (head?_append_ws_paren hws2), List.append_nil]
    have hdw : (name ++ ws2 ++ '(' :: tail).dropWhile isWordChar =
        ws2 ++ '(' :: tail := by
      rw [List.append_assoc, List.dropWhile_append_of_pos hnw,
        dropWhile_eq_self_of_head (head?_append_ws_paren hws2)]
    rw [htw, hdw]
    have hne2 : name ≠ [] := hnne
    simp only [hne2, reduceIte]
    rw [List.dropWhile_append_of_pos hws2]
    have hpws : isWs '(' = false := by decide
    simp [hpws]
  -- character facts at the site
  have hws' : content[pt.length - 1]? = some wc := by
    rw [hsplit, List.getElem?_append_left (by omega), ← List.getLast?_eq_getElem?]
    exact hptlast
  have hwd' : content[pt.length]? = some nc := by
    rw [hsplit, List.getElem?_append_right (le_refl _), Nat.sub_self, hname]
    simp
  exact scanAll_mem directCallM_ok hsplit hmatch
    (directCall_no_overlap hws' hwcw hwd' hncw hptlen)

lemma bareIdent_scan_mem {content A ws1 name tail : Str}
    (hcontent : content = A ++ ws1 ++ name ++ tail)
    (hws1ne : ws1 ≠ []) (hws1 : ∀ c ∈ ws1, isWs c = true)
    (hnne : name ≠ []) (hnw : ∀ c ∈ name, isWordChar c = true)
    (hid : identStartHead name = true)
    (htail : ∀ d, tail.head? = some d → isWordChar d = false) :
    name ∈ scanAll bareIdentM content := by
  obtain ⟨wc, hwc⟩ : ∃ wc, ws1.getLast? = some wc := by
    cases hwl : ws1.getLast? with
    | none =>
      rw [List.getLast?_eq_getElem?, List.getElem?_eq_none_iff] at hwl
      cases ws1 with
      | nil => exact absurd rfl hws1ne
      | cons _ _ => simp at hwl
    | some x => exact ⟨x, rfl⟩
  have hwcw : isWs wc = true := hws1 wc (getLast?_mem hwc)
  obtain ⟨nc, ncs, hname⟩ : ∃ nc ncs, name = nc :: ncs := by
    cases name with
    | nil => exact absurd rfl hnne
    | cons a as => exact ⟨a, as, rfl⟩
  have hid' : isIdentStart nc = true := by
    rw [hname] at hid; exact hid
  set pt := A ++ ws1 with hpt
  have hsplit : content = pt ++ (name ++ tail) := by
    rw [hcontent, hpt]; simp
  have hptlast : pt.getLast? = some wc := by
    rw [hpt, List.getLast?_append_of_ne_nil A hws1ne, hwc]
  have hptlen : 1 ≤ pt.length := by
    rw [hpt]
    cases ws1 with
    | nil => exact absurd rfl hws1ne
    | cons _ _ => simp [List.length_append]; omega
  have hmatch : bareIdentM pt.getLast? (name ++ tail) =
      some (name, name.getLastD ' ', tail) := by
    rw [hptlast]
    unfold bareIdentM
    have hprev : prevIsWord (some wc) = false := by
      simp [prevIsWord, not_word_of_ws hwcw]
    rw [hprev]
    simp only [Bool.false_eq_true, reduceIte]
    have htw : (name ++ tail).takeWhile isWordChar = name := by
      rw [List.takeWhile_append_of_pos hnw, takeWhile_eq_nil_of_head htail,
        List.append_nil]
    have hdw : (name ++ tail).dropWhile isWordChar = tail :=
      by rw [List.dropWhile_append_of_pos hnw, dropWhile_eq_self_of_head htail]
    rw [hname]
    simp only [List.cons_append, hid', reduceIte]
    rw [← List.cons_append, ← hname, htw, hdw]
  have hws' : content[pt.length - 1]? = some wc := by
    rw [hsplit, List.getElem?_append_left (by omega), ← List.getLast?_eq_getElem?]
    exact hptlast
  exact scanAll_mem bareIdentM_ok hsplit hmatch
    (bareIdent_no_overlap hws' hwcw hptlen)

/-!
### Declaration lines feed the usage scan
-/

lemma litThenWord_eq {lit s name r3 : Str}
    (h : litThenWord lit s = some (name, r3)) :
    ∃ ws1, s = lit ++ ws1 ++ name ++ r3 ∧ ws1 ≠ [] ∧
      (∀ c ∈ ws1, isWs c = true) ∧ name ≠ [] ∧
      (∀ c ∈ name, isWordChar c = true) ∧
      (∀ d, r3.head? = some d → isWordChar d = false) := by
  unfold litThenWord at h
  split at h
  · simp at h
  · rename_i r1 hsp
    split at h
    · simp at h
    · rename_i r2 hwp
      obtain ⟨hr2, hnne, hnw, hr3h⟩ := parseWordPlus_eq h
      obtain ⟨ws1, hr1, hws1ne, hws1⟩ := parseWsPlus_eq hwp
      have hse := stripPre_eq hsp
      refine ⟨ws1, ?_, hws1ne, hws1, hnne, hnw, hr3h⟩
      rw [hse, hr1, hr2]
      simp [List.append_assoc]

/-- A recognized function declaration plants its name in the direct-call
scan of the same content (its own `name(` matches `\b(\w+)\s*\(`). -/
lemma funcDecl_scan_mem {c l name : Str} (hl : l ∈ splitLines c)
    (hd : funcDecl l = some name) :
    name ∈ scanAll directCallM c ∧ name ≠ [] ∧
      ∀ ch ∈ name, isWordChar ch = true := by
  unfold funcDecl at hd
  split at hd
  · simp at hd
  · rename_i nm r3 hlw
    split at hd
    · rename_i rest hdw
      simp only [Option.some.injEq] at hd
      subst hd
      obtain ⟨ws1, hls, hws1ne, hws1, hnne, hnw, _⟩ := litThenWord_eq hlw
      obtain ⟨a, b, hc, _⟩ := splitLines_mem_decomp c l hl
      have hr3 : r3 = r3.takeWhile isWs ++ '(' :: rest := by
        conv_lhs => rw [← List.takeWhile_append_dropWhile (p := isWs) (l := r3)]
        rw [hdw]
      refine ⟨?_, hnne, hnw⟩
      have hcontent : c = (a ++ ("func".toList)) ++ ws1 ++ nm ++
          r3.takeWhile isWs ++ '(' :: (rest ++ b) := by
        rw [hc, hls]
        conv_lhs => rw [hr3]
        simp [List.append_assoc]
      exact directCall_scan_mem hcontent hws1ne hws1 hnne hnw
        (fun ch hch => List.mem_takeWhile_imp hch)
    · simp at hd

/-- A `var`/`signal` style declaration whose name starts with a letter or
underscore plants its name in the bare-identifier scan (`pre0` is the
matched export annotation, or empty). -/
lemma litThenWord_bare_scan_mem {c l lit pre0 rr name r3 : Str}
    (hl : l ∈ splitLines c) (hpre : l = pre0 ++ rr)
    (hlw : litThenWord lit rr = some (name, r3))
    (hid : identStartHead name = true) :
    name ∈ scanAll bareIdentM c := by
  obtain ⟨ws1, hls, hws1ne, hws1, hnne, hnw, hr3h⟩ := litThenWord_eq hlw
  obtain ⟨a, b, hc, hb⟩ := splitLines_mem_decomp c l hl
  have hcontent : c = (a ++ pre0 ++ lit) ++ ws1 ++ name ++ (r3 ++ b) := by
    rw [hc, hpre, hls]; simp [List.append_assoc]
  refine bareIdent_scan_mem hcontent hws1ne hws1 hnne hnw hid ?_
  intro d hd
  cases r3 with
  | nil =>
    simp only [List.nil_append] at hd
    rcases hb with hb | ⟨b', hb⟩
    · subst hb; simp at hd
    · subst hb
      simp at hd
      rw [← hd]; decide
  | cons x xs =>
    simp at hd
    exact hr3h d (by simp [hd])

/-!
### Every phase-1 entry names an identifier the usage scan also collects
-/

lemma mapSet_forall {α : Type} {P : Str × α → Prop} {k : Str} {v : α} :
    ∀ {m : List (Str × α)}, (∀ e ∈ m, P e) → P (k, v) →
      ∀ e ∈ mapSet k v m, P e := by
  intro m
  induction m with
  | nil =>
    intro _ hkv e he
    simp only [mapSet, List.mem_singleton] at he
    exact he ▸ hkv
  | cons hd tl ih =>
    intro hm hkv e he
    obtain ⟨k', v'⟩ := hd
    by_cases hk : k' = k
    · simp only [mapSet, hk, reduceIte, List.mem_cons] at he
      rcases he with he | he
      · exact he ▸ hkv
      · exact hm e (List.mem_cons_of_mem _ he)
    · simp only [mapSet, hk, reduceIte, List.mem_cons] at he
      rcases he with he | he
      · exact he ▸ hm (k', v') (List.mem_cons_self _ _)
      · exact ih (fun x hx => hm x (List.mem_cons_of_mem _ hx)) hkv e he

lemma exportSkipExt_eq {r rr : Str} (h : exportSkipExt r = some rr) :
    ∃ mid, r = mid ++ rr := by
  unfold exportSkipExt at h
  cases r with
  | nil => simp at h
  | cons c r2 =>
    by_cases hc : c = '_'
    · simp only [hc, reduceIte] at h
      cases hwp : parseWordPlus r2 with
      | none => rw [hwp] at h; simp at h
      | some pr =>
        obtain ⟨w, r3⟩ := pr
        rw [hwp] at h
        obtain ⟨hr2, _, _, _⟩ := parseWordPlus_eq hwp
        obtain ⟨ws, hr3, _, _⟩ := parseWsPlus_eq h
        exact ⟨'_' :: (w ++ ws), by rw [hc, hr2, hr3]; simp⟩
    · simp [hc] at h

lemma exportSkip_eq {r rr : Str} (h : exportSkip r = some rr) :
    ∃ mid, r = mid ++ rr := by
  unfold exportSkip at h
  cases he : exportSkipExt r with
  | none =>
    rw [he] at h
    obtain ⟨ws, hr, _, _⟩ := parseWsPlus_eq h
    exact ⟨ws, hr⟩
  | some rr2 =>
    rw [he] at h
    simp only [Option.some.injEq] at h
    subst h
    exact exportSkipExt_eq he

lemma varDecl_eq {line : Str} {ex : Bool} {name : Str}
    (h : varDecl line = some (ex, name)) :
    ∃ pre0 rr r3, line = pre0 ++ rr ∧
      litThenWord ("var".toList) rr = some (name, r3) := by
  unfold varDecl at h
  split at h
  · rename_i r hsp
    split at h
    · rename_i rr hes
      unfold varNameTail at h
      rw [Option.map_map] at h
      rcases Option.map_eq_some'.mp h with ⟨pr, hlw, hpr⟩
      obtain ⟨mid, hr⟩ := exportSkip_eq hes
      have hline := stripPre_eq hsp
      refine ⟨"@export".toList ++ mid, rr, pr.2, ?_, ?_⟩
      · rw [hline, hr]; simp
      · have : pr.1 = name := by simpa using congrArg Prod.snd hpr
        rw [hlw]; rw [← this]
    · simp at h
  · unfold varNameTail at h
    rw [Option.map_map] at h
    rcases Option.map_eq_some'.mp h with ⟨pr, hlw, hpr⟩
    refine ⟨[], line, pr.2, by simp, ?_⟩
    have : pr.1 = name := by simpa using congrArg Prod.snd hpr
    rw [hlw, ← this]

lemma sigDecl_eq {line name : Str} (h : sigDecl line = some name) :
    ∃ r3, litThenWord ("signal".toList) line = some (name, r3) := by
  unfold sigDecl at h
  rcases Option.map_eq_some'.mp h with ⟨pr, hlw, hpr⟩
  exact ⟨pr.2, by rw [hlw, ← hpr]⟩

lemma stepFn_ok {files : List SrcFile} {p c : Str} (hpc : (p, c) ∈ files)
    {line prev : Str} {i : Nat} {acc : Decls}
    (hline : line ∈ splitLines c) (hacc : DeclsOk files acc) :
    DeclsOk files (stepFn p line prev i acc) := by
  unfold stepFn
  cases hf : funcDecl line with
  | none => exact hacc
  | some name =>
    by_cases h1 : virtualMethods.contains name = true
    · simp only [h1, reduceIte]; exact hacc
    · by_cases h2 : ("_on_".toList).isPrefixOf name = true
      · simp only [h1, h2, reduceIte]; exact hacc
      · simp only [h1, h2, reduceIte]
        obtain ⟨hscan, hne, hword⟩ := funcDecl_scan_mem hline hf
        exact ⟨mapSet_forall hacc.1
          ⟨p, c, name, hpc, rfl, hword, hscan, Bool.eq_false_iff.mpr h1, Bool.eq_false_iff.mpr h2⟩,
          hacc.2.1, hacc.2.2⟩

lemma stepVar_ok {files : List SrcFile} {p c : Str} (hpc : (p, c) ∈ files)
    {line : Str} {i : Nat} {acc : Decls}
    (hline : line ∈ splitLines c) (hacc : DeclsOk files acc) :
    DeclsOk files (stepVar p line i acc) := by
  unfold stepVar
  cases hv : varDecl line with
  | none => exact hacc
  | some pr =>
    obtain ⟨ex, name⟩ := pr
    obtain ⟨pre0, rr, r3, hpre, hlw⟩ := varDecl_eq hv
    obtain ⟨ws1, _, _, _, hnne, hnw, _⟩ := litThenWord_eq hlw
    have hdecl : name ∈ declVarNames files := by
      unfold declVarNames
      refine List.mem_flatMap.2 ⟨(p, c), hpc, List.mem_filterMap.2 ⟨line, hline, ?_⟩⟩
      rw [hv]; rfl
    refine ⟨hacc.1, mapSet_forall hacc.2.1 ⟨p, c, name, hpc, rfl, hnw, hdecl, ?_⟩,
      hacc.2.2⟩
    intro hid
    exact litThenWord_bare_scan_mem hline hpre hlw hid

lemma stepSig_ok {files : List SrcFile} {p c : Str} (hpc : (p, c) ∈ files)
    {line : Str} {i : Nat} {acc : Decls}
    (hline : line ∈ splitLines c) (hacc : DeclsOk files acc) :
    DeclsOk files (stepSig p line i acc) := by
  unfold stepSig
  cases hs : sigDecl line with
  | none => exact hacc
  | some name =>
    obtain ⟨r3, hlw⟩ := sigDecl_eq hs
    obtain ⟨ws1, _, _, _, hnne, hnw, _⟩ := litThenWord_eq hlw
    have hdecl : name ∈ declSigNames files := by
      unfold declSigNames
      exact List.mem_flatMap.2 ⟨(p, c), hpc, List.mem_filterMap.2 ⟨line, hline, hs⟩⟩
    refine ⟨hacc.1, hacc.2.1,
      mapSet_forall hacc.2.2 ⟨p, c, name, hpc, rfl, hnw, hdecl, ?_⟩⟩
    intro hid
    exact litThenWord_bare_scan_mem hline (by simp : line = [] ++ line) hlw hid

lemma enumLines_mem :
    ∀ {j : Nat} {prev : Str} {ls : List Str} {t : Nat × Str × Str},
      t ∈ enumLines j prev ls → t.2.1 ∈ ls := by
  intro j prev ls
  induction ls generalizing j prev with
  | nil => intro t ht; simp [enumLines] at ht
  | cons l rest ih =>
    intro t ht
    simp only [enumLines, List.mem_cons] at ht
    rcases ht with ht | ht
    · subst ht; exact List.mem_cons_self _ _
    · exact List.mem_cons_of_mem _ (ih ht)

lemma foldLines_ok {files : List SrcFile} {p c : Str} (hpc : (p, c) ∈ files) :
    ∀ (ts : List (Nat × Str × Str)) (acc : Decls),
      (∀ t ∈ ts, t.2.1 ∈ splitLines c) → DeclsOk files acc →
      DeclsOk files (ts.foldl (collectLine p) acc) := by
  intro ts
  induction ts with
  | nil => intro acc _ hacc; exact hacc
  | cons t rest ih =>
    intro acc hts hacc
    obtain ⟨i, line, prev⟩ := t
    have hline : line ∈ splitLines c := hts _ (List.mem_cons_self _ _)
    exact ih _ (fun u hu => hts u (List.mem_cons_of_mem _ hu))
      (stepSig_ok hpc hline (stepVar_ok hpc hline (stepFn_ok hpc hline hacc)))

lemma collectDecls_ok (files : List SrcFile) :
    DeclsOk files (collectDecls files) := by
  unfold collectDecls
  have hgen : ∀ (fs : List SrcFile) (acc : Decls), (∀ f ∈ fs, f ∈ files) →
      DeclsOk files acc → DeclsOk files (fs.foldl collectFileDecls acc) := by
    intro fs
    induction fs with
    | nil => intro acc _ hacc; exact hacc
    | cons f rest ih =>
      intro acc hfs hacc
      refine ih _ (fun g hg => hfs g (List.mem_cons_of_mem _ hg)) ?_
      obtain ⟨p, c⟩ := f
      exact foldLines_ok (hfs _ (List.mem_cons_self _ _)) _ _
        (fun t ht => enumLines_mem ht) hacc
  exact hgen files _ (fun f hf => hf) ⟨by simp, by simp, by simp⟩

/-!
### The usage set absorbs the scans of each file
-/

lemma word_no_colon {name : Str} (h : ∀ ch ∈ name, isWordChar ch = true) :
    ':' ∉ name := by
  intro hmem
  exact absurd (h ':' hmem) (by decide)

lemma usages_of_scan_direct {files scenes : List SrcFile} {p c x : Str}
    (hpc : (p, c) ∈ files) (hx : x ∈ scanAll directCallM c) :
    x ∈ usagesOf files scenes := by
  unfold usagesOf
  refine List.mem_append_left _ (List.mem_flatMap.2 ⟨(p, c), hpc, ?_⟩)
  unfold phase2Usages
  simp only [List.mem_append]
  tauto

lemma usages_of_scan_bare {files scenes : List SrcFile} {p c x : Str}
    (hpc : (p, c) ∈ files) (hx : x ∈ scanAll bareIdentM c) :
    x ∈ usagesOf files scenes := by
  unfold usagesOf
  refine List.mem_append_left _ (List.mem_flatMap.2 ⟨(p, c), hpc, ?_⟩)
  unfold phase2Usages
  simp only [List.mem_append]
  tauto

/-!
### Emptiness of the dead-code candidate lists
-/

lemma deadFunctionsNil (files scenes : List SrcFile)
    (hpath : ∀ f ∈ files, ':' ∉ f.1) :
    (detectDeadCode files scenes).deadFunctions = [] := by
  have hdef : (detectDeadCode files scenes).deadFunctions =
      (collectDecls files).fns.filterMap
        (decideFn (usagesOf files scenes) (stringRefsOf files scenes)) := rfl
  rw [hdef, List.filterMap_eq_nil_iff]
  intro kv hkv
  obtain ⟨p, c, name, hpc, hkey, hword, hscan, _, _⟩ := (collectDecls_ok files).1 kv hkv
  have hname : splitCCsecond kv.1 = name := by
    rw [hkey]; exact splitCCsecond_keyOf (hpath _ hpc) (word_no_colon hword)
  have hus : name ∈ usagesOf files scenes := usages_of_scan_direct hpc hscan
  unfold decideFn
  rw [hname]
  simp [hus]

lemma deadVariablesNil (files scenes : List SrcFile)
    (hpath : ∀ f ∈ files, ':' ∉ f.1)
    (hheads : ∀ n ∈ declVarNames files, identStartHead n = true) :
    (detectDeadCode files scenes).deadVariables = [] := by
  have hdef : (detectDeadCode files scenes).deadVariables =
      (collectDecls files).vars.filterMap
        (decideVar (usagesOf files scenes)) := rfl
  rw [hdef, List.filterMap_eq_nil_iff]
  intro kv hkv
  obtain ⟨p, c, name, hpc, hkey, hword, hdecl, hscan⟩ :=
    (collectDecls_ok files).2.1 kv hkv
  have hname : splitCCsecond kv.1 = name := by
    rw [hkey]; exact splitCCsecond_keyOf (hpath _ hpc) (word_no_colon hword)
  have hus : name ∈ usagesOf files scenes :=
    usages_of_scan_bare hpc (hscan (hheads _ hdecl))
  unfold decideVar
  rw [hname]
  simp [hus]

lemma deadSignalsNil (files scenes : List SrcFile)
    (hpath : ∀ f ∈ files, ':' ∉ f.1)
    (hheads : ∀ n ∈ declSigNames files, identStartHead n = true) :
    (detectDeadCode files scenes).deadSignals = [] := by
  have hdef : (detectDeadCode files scenes).deadSignals =
      (collectDecls files).sigs.filterMap
        (decideSig (usagesOf files scenes) (stringRefsOf files scenes)) := rfl
  rw [hdef, List.filterMap_eq_nil_iff]
  intro kv hkv
  obtain ⟨p, c, name, hpc, hkey, hword, hdecl, hscan⟩ :=
    (collectDecls_ok files).2.2 kv hkv
  have hname : splitCCsecond kv.1 = name := by
    rw [hkey]; exact splitCCsecond_keyOf (hpath _ hpc) (word_no_colon hword)
  have hus : name ∈ usagesOf files scenes :=
    usages_of_scan_bare hpc (hscan (hheads _ hdecl))
  unfold decideSig
  rw [hname]
  simp [hus]

/-!
### Characterization of the signal flow graph
-/

lemma lookupFG_append (g1 g2 : List (Str × FlowEntry)) (n : Str) :
    lookupFG n (g1 ++ g2) =
      (match lookupFG n g1 with
       | some e => some e
       | none => lookupFG n g2) := by
  induction g1 with
  | nil => simp [lookupFG]
  | cons kv rest ih =>
    obtain ⟨k, e⟩ := kv
    by_cases hk : k = n
    · simp [lookupFG, hk]
    · simp [lookupFG, hk, ih]

lemma lookupFG_cons (n k : Str) (x : FlowEntry) (l : List (Str × FlowEntry)) :
    lookupFG n ((k, x) :: l) = if k = n then some x else lookupFG n l := rfl

lemma lookupFG_fgAddConn (g : List (Str × FlowEntry)) (c : ConnRec) (n : Str) :
    lookupFG n (fgAddConn g c) = (lookupFG n g).map (fun e =>
      if n = c.signal then
        { e with connectedTo := e.connectedTo ++ [(c.file, c.handler)] }
      else e) := by
  induction g with
  | nil => simp [lookupFG, fgAddConn]
  | cons kv rest ih =>
    obtain ⟨k, e⟩ := kv
    simp only [fgAddConn, List.map_cons] at ih ⊢
    rw [lookupFG_cons, lookupFG_cons]
    by_cases hk : k = n
    · subst hk
      rw [if_pos rfl, if_pos rfl]
      simp
    · rw [if_neg hk, if_neg hk]
      exact ih

lemma lookupFG_fgAddEmit (g : List (Str × FlowEntry)) (x : EmitRec) (n : Str) :
    lookupFG n (fgAddEmit g x) = (lookupFG n g).map (fun e =>
      if n = x.signal then
        { e with emittedFrom := e.emittedFrom ++ [(x.file, x.line)] }
      else e) := by
  induction g with
  | nil => simp [lookupFG, fgAddEmit]
  | cons kv rest ih =>
    obtain ⟨k, e⟩ := kv
    simp only [fgAddEmit, List.map_cons] at ih ⊢
    rw [lookupFG_cons, lookupFG_cons]
    by_cases hk : k = n
    · subst hk
      rw [if_pos rfl, if_pos rfl]
      simp
    · rw [if_neg hk, if_neg hk]
      exact ih

lemma lookupFG_foldConns (cs : List ConnRec) :
    ∀ (g : List (Str × FlowEntry)) (n : Str),
      lookupFG n (cs.foldl fgAddConn g) = (lookupFG n g).map (fun e =>
        { e with connectedTo := e.connectedTo ++
            (cs.filter (fun c => c.signal = n)).map (fun c => (c.file, c.handler)) }) := by
  induction cs with
  | nil =>
    intro g n
    cases h : lookupFG n g <;> simp [h]
  | cons c cs ih =>
    intro g n
    have hstep := lookupFG_fgAddConn g c n
    show lookupFG n (cs.foldl fgAddConn (fgAddConn g c)) = _
    rw [ih (fgAddConn g c) n, hstep, Option.map_map]
    cases h : lookupFG n g with
    | none => simp
    | some e =>
      simp only [Option.map_some', Option.some.injEq, Function.comp]
      by_cases hs : c.signal = n
      · subst hs
        simp [List.filter_cons, List.append_assoc]
      · have hs' : ¬ n = c.signal := fun hh => hs hh.symm
        simp [hs, hs', List.filter_cons]

lemma lookupFG_foldEmits (xs : List EmitRec) :
    ∀ (g : List (Str × FlowEntry)) (n : Str),
      lookupFG n (xs.foldl fgAddEmit g) = (lookupFG n g).map (fun e =>
        { e with emittedFrom := e.emittedFrom ++
            (xs.filter (fun x => x.signal = n)).map (fun x => (x.file, x.line)) }) := by
  induction xs with
  | nil =>
    intro g n
    cases h : lookupFG n g <;> simp [h]
  | cons x xs ih =>
    intro g n
    have hstep := lookupFG_fgAddEmit g x n
    show lookupFG n (xs.foldl fgAddEmit (fgAddEmit g x)) = _
    rw [ih (fgAddEmit g x) n, hstep, Option.map_map]
    cases h : lookupFG n g with
    | none => simp
    | some e =>
      simp only [Option.map_some', Option.some.injEq, Function.comp]
      by_cases hs : x.signal = n
      · subst hs
        simp [List.filter_cons, List.append_assoc]
      · have hs' : ¬ n = x.signal := fun hh => hs hh.symm
        simp [hs, hs', List.filter_cons]

lemma buildFlowGraph_eq (sigs : List SigDeclRec) (conns : List ConnRec)
    (emits : List EmitRec) :
    buildFlowGraph sigs conns emits =
      emits.foldl fgAddEmit (conns.foldl fgAddConn (buildG0 sigs)) := rfl

lemma buildG0_lookup_isSome (sigs : List SigDeclRec) :
    ∀ (g : List (Str × FlowEntry)) (n : Str),
      (lookupFG n (sigs.foldl
        (fun g s =>
          if (lookupFG s.name g).isSome then g
          else g ++ [(s.name, FlowEntry.mk s.file [] [])]) g)).isSome ↔
      ((lookupFG n g).isSome ∨ n ∈ sigs.map (fun s => s.name)) := by
  induction sigs with
  | nil => intro g n; simp
  | cons s sigs ih =>
    intro g n
    show (lookupFG n (sigs.foldl _ _)).isSome ↔ _
    rw [ih]
    by_cases hdup : (lookupFG s.name g).isSome
    · simp only [hdup, reduceIte]
      constructor
      · rintro (h | h)
        · exact Or.inl h
        · exact Or.inr (by simp [h])
      · rintro (h | h)
        · exact Or.inl h
        · simp only [List.map_cons, List.mem_cons] at h
          rcases h with h | h
          · subst h; exact Or.inl hdup
          · exact Or.inr h
    · simp only [hdup, Bool.false_eq_true, reduceIte]
      rw [lookupFG_append]
      by_cases hn : (lookupFG n g).isSome
      · rcases Option.isSome_iff_exists.mp hn with ⟨e, he⟩
        simp [he]
      · rcases Option.not_isSome_iff_eq_none.mp hn with he
        rw [he]
        rw [lookupFG_cons]
        by_cases hsn : s.name = n
        · subst hsn
          rw [if_pos rfl]
          simp
        · rw [if_neg hsn]
          simp only [lookupFG, Option.isSome_none, Bool.false_eq_true, false_or,
            List.map_cons, List.mem_cons]
          constructor
          · intro h; exact Or.inr h
          · rintro (h | h)
            · exact absurd h.symm hsn
            · exact h

lemma buildG0_entries (sigs : List SigDeclRec) :
    ∀ (g : List (Str × FlowEntry)),
      (∀ k e, lookupFG k g = some e → e.connectedTo = [] ∧ e.emittedFrom = []) →
      ∀ k e, lookupFG k (sigs.foldl
        (fun g s =>
          if (lookupFG s.name g).isSome then g
          else g ++ [(s.name, FlowEntry.mk s.file [] [])]) g) = some e →
        e.connectedTo = [] ∧ e.emittedFrom = [] := by
  induction sigs with
  | nil => intro g hg; exact hg
  | cons s sigs ih =>
    intro g hg
    show ∀ k e, lookupFG k (sigs.foldl _ _) = some e → _
    apply ih
    by_cases hdup : (lookupFG s.name g).isSome
    · simpa [hdup] using hg
    · simp only [hdup, Bool.false_eq_true, reduceIte]
      intro k e hke
      rw [lookupFG_append] at hke
      cases hkg : lookupFG k g with
      | some e0 =>
        rw [hkg] at hke
        simp only [Option.some.injEq] at hke
        exact hke ▸ hg k e0 hkg
      | none =>
        rw [hkg] at hke
        by_cases hsk : s.name = k
        · simp only [lookupFG, hsk, reduceIte, Option.some.injEq] at hke
          rw [← hke]
          exact ⟨rfl, rfl⟩
        · simp [lookupFG, hsk] at hke

lemma buildFlowGraph_isSome (sigs : List SigDeclRec) (conns : List ConnRec)
    (emits : List EmitRec) (n : Str) :
    (lookupFG n (buildFlowGraph sigs conns emits)).isSome ↔
      n ∈ sigs.map (fun s => s.name) := by
  have h1 : (lookupFG n (buildFlowGraph sigs conns emits)).isSome =
      (lookupFG n (buildG0 sigs)).isSome := by
    rw [buildFlowGraph_eq, lookupFG_foldEmits, lookupFG_foldConns]
    cases lookupFG n (buildG0 sigs) <;> rfl
  rw [h1]
  have := buildG0_lookup_isSome sigs [] n
  rw [show lookupFG n ([] : List (Str × FlowEntry)) = none from rfl] at this
  simp only [Option.isSome_none, Bool.false_eq_true, false_or] at this
  exact this

lemma buildFlowGraph_entry {sigs : List SigDeclRec} {conns : List ConnRec}
    {emits : List EmitRec} {n : Str} {e : FlowEntry}
    (h : lookupFG n (buildFlowGraph sigs conns emits) = some e) :
    e.connectedTo =
      (conns.filter (fun c => c.signal = n)).map (fun c => (c.file, c.handler)) ∧
    e.emittedFrom =
      (emits.filter (fun x => x.signal = n)).map (fun x => (x.file, x.line)) := by
  rw [buildFlowGraph_eq, lookupFG_foldEmits, lookupFG_foldConns] at h
  cases h0 : lookupFG n (buildG0 sigs) with
  | none => rw [h0] at h; simp at h
  | some e0 =>
    rw [h0] at h
    simp only [Option.map_some', Option.some.injEq] at h
    obtain ⟨hc0, he0⟩ := buildG0_entries sigs [] (by intro k e hk; simp [lookupFG] at hk)
      n e0 h0
    rw [← h]
    simp [hc0, he0]

/-!
### Names reported dead are never in the usage set
-/

lemma deadFn_name_not_used {files scenes : List SrcFile} {e : DeadFn}
    (he : e ∈ (detectDeadCode files scenes).deadFunctions) :
    e.name ∉ usagesOf files scenes := by
  have hdef : (detectDeadCode files scenes).deadFunctions =
      (collectDecls files).fns.filterMap
        (decideFn (usagesOf files scenes) (stringRefsOf files scenes)) := rfl
  rw [hdef] at he
  rcases List.mem_filterMap.mp he with ⟨kv, _, hdec⟩
  unfold decideFn at hdec
  by_cases h1 : splitCCsecond kv.1 ∈ usagesOf files scenes
  · simp [h1] at hdec
  · by_cases h2 : splitCCsecond kv.1 ∈ stringRefsOf files scenes
    · simp [h1, h2] at hdec
    · by_cases h3 : (!kv.2.isPriv && kv.2.hasDoc) = true
      · simp [h1, h2, h3] at hdec
      · by_cases h4 : (!kv.2.isPriv && isPublicApi (splitCCsecond kv.1)) = true
        · simp [h1, h2, h3, h4] at hdec
        · simp only [] at hdec
          rw [if_neg h1, if_neg h2, if_neg h3, if_neg h4] at hdec
          have hrec := Option.some.inj hdec
          rw [← hrec]
          exact h1

/-!
### Orphan signals are exactly the never-connected, never-emitted ones
-/

lemma analyzeSignalFlowCore_fields (files : List SrcFile) :
    (analyzeSignalFlowCore files).signals = (collectSignalFlow files).1 ∧
    (analyzeSignalFlowCore files).connections = (collectSignalFlow files).2.1 ∧
    (analyzeSignalFlowCore files).emissions = (collectSignalFlow files).2.2 ∧
    (analyzeSignalFlowCore files).flowGraph =
      buildFlowGraph (collectSignalFlow files).1 (collectSignalFlow files).2.1
        (collectSignalFlow files).2.2 :=
  ⟨rfl, rfl, rfl, rfl⟩

lemma orphan_iff {files : List SrcFile} {n : Str}
    (hn : n ∈ (analyzeSignalFlowCore files).signals.map (fun s => s.name)) :
    (n ∈ (analyzeSignalFlowCore files).orphanSignals.map (fun s => s.name)) ↔
    ((∀ c ∈ (analyzeSignalFlowCore files).connections, ¬ c.signal = n) ∧
     (∀ x ∈ (analyzeSignalFlowCore files).emissions, ¬ x.signal = n)) := by
  have horph : (analyzeSignalFlowCore files).orphanSignals =
      (collectSignalFlow files).1.filter (fun s =>
        match lookupFG s.name (buildFlowGraph (collectSignalFlow files).1
            (collectSignalFlow files).2.1 (collectSignalFlow files).2.2) with
        | some f => f.connectedTo.isEmpty && f.emittedFrom.isEmpty
        | none => false) := rfl
  have hsigs : (analyzeSignalFlowCore files).signals = (collectSignalFlow files).1 := rfl
  have hconns : (analyzeSignalFlowCore files).connections =
      (collectSignalFlow files).2.1 := rfl
  have hemits : (analyzeSignalFlowCore files).emissions =
      (collectSignalFlow files).2.2 := rfl
  rw [horph, hsigs, hconns, hemits] at *
  constructor
  · intro h
    rcases List.mem_map.mp h with ⟨s, hs, hsname⟩
    rcases List.mem_filter.mp hs with ⟨_, hpred⟩
    rw [hsname] at hpred
    cases hl : lookupFG n (buildFlowGraph (collectSignalFlow files).1
        (collectSignalFlow files).2.1 (collectSignalFlow files).2.2) with
    | none => rw [hl] at hpred; simp at hpred
    | some f =>
      rw [hl] at hpred
      simp only [Bool.and_eq_true] at hpred
      obtain ⟨hcE, heE⟩ := hpred
      obtain ⟨hfc, hfe⟩ := buildFlowGraph_entry hl
      rw [hfc, List.isEmpty_iff] at hcE
      rw [hfe, List.isEmpty_iff] at heE
      constructor
      · intro c hcmem hceq
        have hmem1 : c ∈ (collectSignalFlow files).2.1.filter
            (fun c => c.signal = n) := List.mem_filter.2 ⟨hcmem, by simp [hceq]⟩
        have hmem2 := List.mem_map_of_mem (fun c => (c.file, c.handler)) hmem1
        rw [hcE] at hmem2
        simp at hmem2
      · intro x hxmem hxeq
        have hmem1 : x ∈ (collectSignalFlow files).2.2.filter
            (fun x => x.signal = n) := List.mem_filter.2 ⟨hxmem, by simp [hxeq]⟩
        have hmem2 := List.mem_map_of_mem (fun x => (x.file, x.line)) hmem1
        rw [heE] at hmem2
        simp at hmem2
  · rintro ⟨hcall, heall⟩
    rcases List.mem_map.mp hn with ⟨s0, hs0, hs0name⟩
    refine List.mem_map.2 ⟨s0, List.mem_filter.2 ⟨hs0, ?_⟩, hs0name⟩
    rw [hs0name]
    have hsome : (lookupFG n (buildFlowGraph (collectSignalFlow files).1
        (collectSignalFlow files).2.1 (collectSignalFlow files).2.2)).isSome :=
      (buildFlowGraph_isSome _ _ _ n).mpr hn
    rcases Option.isSome_iff_exists.mp hsome with ⟨f, hf⟩
    rw [hf]
    obtain ⟨hfc, hfe⟩ := buildFlowGraph_entry hf
    have h1 : (collectSignalFlow files).2.1.filter (fun c => c.signal = n) = [] :=
      List.filter_eq_nil_iff.mpr (fun c hc => by simpa using hcall c hc)
    have h2 : (collectSignalFlow files).2.2.filter (fun x => x.signal = n) = [] :=
      List.filter_eq_nil_iff.mpr (fun x hx => by simpa using heall x hx)
    rw [h1] at hfc
    rw [h2] at hfe
    simp [hfc, hfe]

/-!
### Error semantics of the fallible-read wrappers
-/

lemma readAllF_ok {l : List (Str × Option Str)} (h : ∀ f ∈ l, f.2 ≠ none) :
    readAllF l = .ok (okContents l) := by
  induction l with
  | nil => rfl
  | cons a rest ih =>
    obtain ⟨p, c⟩ := a
    have hrest : ∀ f ∈ rest, f.2 ≠ none :=
      fun f hf => h f (List.mem_cons_of_mem _ hf)
    cases c with
    | none => exact absurd rfl (h _ (List.mem_cons_self _ _))
    | some c0 =>
      have h1 : readAllF ((p, some c0) :: rest) =
          (readAllF rest).map (fun fs => (p, c0) :: fs) := rfl
      have h2 : okContents ((p, some c0) :: rest) =
          (p, c0) :: okContents rest := rfl
      rw [h1, ih hrest, h2]
      rfl

lemma readAllF_error {l : List (Str × Option Str)}
    (h : ∃ f ∈ l, f.2 = none) : readAllF l = .error () := by
  induction l with
  | nil => simp at h
  | cons a rest ih =>
    obtain ⟨p, c⟩ := a
    obtain ⟨f, hf, hfn⟩ := h
    rcases List.mem_cons.mp hf with heq | hmem
    · subst heq
      cases c with
      | none => rfl
      | some c0 => simp at hfn
    · cases c with
      | none => rfl
      | some c0 =>
        have h1 : readAllF ((p, some c0) :: rest) =
            (readAllF rest).map (fun fs => (p, c0) :: fs) := rfl
        rw [h1, ih ⟨f, hmem, hfn⟩]
        rfl

lemma detectDeadCodeRun_ok {files scenes : List (Str × Option Str)}
    (hf : ∀ f ∈ files, f.2 ≠ none) (hs : ∀ f ∈ scenes, f.2 ≠ none) :
    detectDeadCodeRun files scenes =
      .ok (detectDeadCode (okContents files) (okContents scenes)) := by
  unfold detectDeadCodeRun
  rw [readAllF_ok hf, readAllF_ok hs]

lemma detectDeadCodeRun_error_files {files scenes : List (Str × Option Str)}
    (h : ∃ f ∈ files, f.2 = none) :
    detectDeadCodeRun files scenes = .error () := by
  unfold detectDeadCodeRun
  rw [readAllF_error h]

lemma detectDeadCodeRun_error_scenes {files scenes : List (Str × Option Str)}
    (h : ∃ f ∈ scenes, f.2 = none) :
    detectDeadCodeRun files scenes = .error () := by
  unfold detectDeadCodeRun
  cases hf : readAllF files with
  | error e => cases e; rfl
  | ok fs => rw [readAllF_error h]

lemma collectReadable_ok {l : List (Str × FileState)}
    (h : ∀ f ∈ l, f.2 ≠ FileState.unreadable) :
    collectReadable l = .ok (readableOf l) := by
  induction l with
  | nil => rfl
  | cons a rest ih =>
    obtain ⟨p, st⟩ := a
    have hrest : ∀ f ∈ rest, f.2 ≠ FileState.unreadable :=
      fun f hf => h f (List.mem_cons_of_mem _ hf)
    cases st with
    | absent =>
      have h1 : collectReadable ((p, FileState.absent) :: rest) =
          collectReadable rest := rfl
      have h2 : readableOf ((p, FileState.absent) :: rest) =
          readableOf rest := rfl
      rw [h1, h2, ih hrest]
    | unreadable => exact absurd rfl (h _ (List.mem_cons_self _ _))
    | readable c =>
      have h1 : collectReadable ((p, FileState.readable c) :: rest) =
          (collectReadable rest).map (fun fs => (p, c) :: fs) := rfl
      have h2 : readableOf ((p, FileState.readable c) :: rest) =
          (p, c) :: readableOf rest := rfl
      rw [h1, ih hrest, h2]
      rfl

lemma collectReadable_error {l : List (Str × FileState)}
    (h : ∃ f ∈ l, f.2 = FileState.unreadable) :
    collectReadable l = .error () := by
  induction l with
  | nil =>
    obtain ⟨f, hf, _⟩ := h
    exact absurd hf (List.not_mem_nil f)
  | cons a rest ih =>
    obtain ⟨p, st⟩ := a
    obtain ⟨f, hf, hfu⟩ := h
    rcases List.mem_cons.mp hf with heq | hmem
    · subst heq
      have hst : st = FileState.unreadable := hfu
      subst hst
      rfl
    · cases st with
      | unreadable => rfl
      | absent => exact ih ⟨f, hmem, hfu⟩
      | readable c =>
        have h1 : collectReadable ((p, FileState.readable c) :: rest) =
            (collectReadable rest).map (fun fs => (p, c) :: fs) := rfl
        rw [h1, ih ⟨f, hmem, hfu⟩]
        rfl

/-!
### The reported name of a dead-function candidate
-/

lemma decideFn_name {us refs : List Str} {kv : Str × FnInfo} {e : DeadFn}
    (h : decideFn us refs kv = some e) : e.name = splitCCsecond kv.1 := by
  unfold decideFn at h
  by_cases h1 : splitCCsecond kv.1 ∈ us
  · simp [h1] at h
  · by_cases h2 : splitCCsecond kv.1 ∈ refs
    · simp [h1, h2] at h
    · by_cases h3 : (!kv.2.isPriv && kv.2.hasDoc) = true
      · simp [h1, h2, h3] at h
      · by_cases h4 : (!kv.2.isPriv && isPublicApi (splitCCsecond kv.1)) = true
        · simp [h1, h2, h3, h4] at h
        · simp only [] at h
          rw [if_neg h1, if_neg h2, if_neg h3, if_neg h4] at h
          rw [← Option.some.inj h]

/-!
### The normalizer through the blank-line filter
-/

lemma normalizeCode_filter (l : List Str) :
    (l.map jsTrim).filter normKeep =
      ((l.map jsTrim).filter (fun t => !t.isEmpty)).filter
        (fun t => !(("#".toList).isPrefixOf t)) := by
  rw [List.filter_filter]
  apply List.filter_congr
  intro a _
  simp [normKeep, Bool.and_comm]

/-!
### The ten claims
-/

/-- C1: for the registry {Audio (no deps), Game (deps: Audio), UI (deps:
Game)} the suggested load order is NOT the sequence starting with
Audio: `order.unshift(name)` in the post-order visit reverses the
topological order, so the result is [UI, Game, Audio]. The spec sentence
is refuted; this theorem records the exact behavior of the code. -/
theorem load_order_reverse_topological :
    (analyzeAutoloads regC1).toOption.map (fun r => r.loadOrder) =
      some [("UI").toList, ("Game").toList, ("Audio").toList] ∧
    ¬ (analyzeAutoloads regC1).toOption.map (fun r => r.loadOrder) =
      some [("Audio").toList, ("Game").toList, ("UI").toList] := by
  exact ⟨by decide, by decide⟩

/-- C2 (amended): a failing read does NOT skip the file. The dead-code
scan has no guard at all: it succeeds on a corpus with no failing file
and rejects with the uncaught exception as soon as any script or scene
file fails to read. The signal-flow scan skips files the `existsSync`
guard rules out, but an existing unreadable file likewise aborts it. -/
theorem scan_read_failure_semantics (files scenes : List (Str × Option Str))
    (sfiles : List (Str × FileState)) :
    ((∀ f ∈ files, f.2 ≠ none) → (∀ f ∈ scenes, f.2 ≠ none) →
       detectDeadCodeRun files scenes =
         .ok (detectDeadCode (okContents files) (okContents scenes))) ∧
    ((∃ f ∈ files, f.2 = none) → detectDeadCodeRun files scenes = .error ()) ∧
    ((∃ f ∈ scenes, f.2 = none) → detectDeadCodeRun files scenes = .error ()) ∧
    ((∀ f ∈ sfiles, f.2 ≠ FileState.unreadable) →
       analyzeSignalFlowRun sfiles =
         .ok (analyzeSignalFlowCore (readableOf sfiles))) ∧
    ((∃ f ∈ sfiles, f.2 = FileState.unreadable) →
       analyzeSignalFlowRun sfiles = .error ()) := by
  refine ⟨fun h1 h2 => detectDeadCodeRun_ok h1 h2,
    fun h => detectDeadCodeRun_error_files h,
    fun h => detectDeadCodeRun_error_scenes h, fun h => ?_, fun h => ?_⟩
  · unfold analyzeSignalFlowRun
    rw [collectReadable_ok h]
    rfl
  · unfold analyzeSignalFlowRun
    rw [collectReadable_error h]
    rfl

/-- Counterexample to C2 as stated: a corpus with one readable and one
unreadable script makes the whole dead-code scan reject instead of
skipping the unreadable file and reporting on the rest. -/
theorem unreadable_file_aborts_dead_scan :
    detectDeadCodeRun
      [(("ok.gd").toList, some (("func f():\n\tpass").toList)),
       (("locked.gd").toList, none)] [] = .error () := rfl

/-- Witness instantiating every hypothesis of the C2 theorem. -/
theorem scan_read_failure_semantics_witness :
    detectDeadCodeRun [(("locked.gd").toList, none)] [] = .error () ∧
    analyzeSignalFlowRun
      [(("gone.gd").toList, FileState.absent),
       (("b.gd").toList, FileState.readable (("signal s").toList))] =
      .ok (analyzeSignalFlowCore [(("b.gd").toList, ("signal s").toList)]) ∧
    analyzeSignalFlowRun [(("c.gd").toList, FileState.unreadable)] =
      .error () := by
  refine ⟨?_, ?_, ?_⟩
  · exact (scan_read_failure_semantics _ [] []).2.1 ⟨_, List.mem_cons_self _ _, rfl⟩
  · exact (scan_read_failure_semantics [] [] _).2.2.2.1 (by decide)
  · exact (scan_read_failure_semantics [] [] _).2.2.2.2 ⟨_, List.mem_cons_self _ _, rfl⟩

/-- C3 (amended): over a corpus whose script paths contain no colon and
whose declared variable and signal names start with a letter or an
underscore, every declaration line also registers its own name in the
usage set, so all three dead lists are empty. (The restrictions are
needed: a digit-initial name escapes the bare-identifier extractor, and
a colon in a path mangles the `::` key split.) -/
theorem dead_lists_empty_for_wellformed_corpora
    (files scenes : List SrcFile)
    (hpath : ∀ f ∈ files, ':' ∉ f.1)
    (hvar : ∀ n ∈ declVarNames files, identStartHead n = true)
    (hsig : ∀ n ∈ declSigNames files, identStartHead n = true) :
    (detectDeadCode files scenes).deadFunctions = [] ∧
    (detectDeadCode files scenes).deadVariables = [] ∧
    (detectDeadCode files scenes).deadSignals = [] :=
  ⟨deadFunctionsNil files scenes hpath,
   deadVariablesNil files scenes hpath hvar,
   deadSignalsNil files scenes hpath hsig⟩

/-- Counterexample to C3 as stated: the digit-initial variable name `9x`
is declared but never captured by the bare-identifier extractor, so the
dead-variables list is not empty for this corpus. -/
theorem digit_variable_reported_dead :
    (detectDeadCode [(("a.gd").toList, ("var 9x").toList)] []).deadVariables =
      [DeadVar.mk (("9x").toList) (("a.gd").toList) 1 false false] := by
  decide

/-- Witness instantiating the C3 theorem on a concrete corpus. -/
theorem dead_lists_empty_witness :
    (detectDeadCode demoCorpus []).deadFunctions = [] ∧
    (detectDeadCode demoCorpus []).deadVariables = [] ∧
    (detectDeadCode demoCorpus []).deadSignals = [] :=
  dead_lists_empty_for_wellformed_corpora demoCorpus []
    (by decide) (by decide) (by decide)

/-- C4: the circular-dependency report is never produced for a mutual
pair or a 3-cycle: the first cross reference from an earlier-listed
autoload to a later-listed one hits `dependents[other.name].push` before
that key is initialized, and the uncaught TypeError aborts the whole
call. Both registries of the scenario reject. -/
theorem circular_check_throws_before_reporting :
    analyzeAutoloads regPair = .error () ∧
    analyzeAutoloads regCycle = .error () := ⟨rfl, rfl⟩

/-- C5: a name that reaches the function-declaration map passed the
virtual-method and `_on_` handler skips, so (over colon-free paths,
which keep the `::` key split faithful) no name recovered from the map
or reported in the dead list is a handler or virtual name. -/
theorem handler_and_virtual_names_never_reported
    (files scenes : List SrcFile)
    (hpath : ∀ f ∈ files, ':' ∉ f.1) :
    (∀ n ∈ (detectDeadCode files scenes).decls.fns.map
        (fun kv => splitCCsecond kv.1),
       ("_on_".toList).isPrefixOf n = false ∧
         virtualMethods.contains n = false) ∧
    (∀ e ∈ (detectDeadCode files scenes).deadFunctions,
       ("_on_".toList).isPrefixOf e.name = false ∧
         virtualMethods.contains e.name = false) := by
  have hmain : ∀ kv ∈ (collectDecls files).fns,
      ("_on_".toList).isPrefixOf (splitCCsecond kv.1) = false ∧
        virtualMethods.contains (splitCCsecond kv.1) = false := by
    intro kv hkv
    obtain ⟨p, c, name, hpc, hkey, hword, hscan, hnv, hnh⟩ :=
      (collectDecls_ok files).1 kv hkv
    have hname : splitCCsecond kv.1 = name := by
      rw [hkey]; exact splitCCsecond_keyOf (hpath _ hpc) (word_no_colon hword)
    rw [hname]
    exact ⟨hnh, hnv⟩
  constructor
  · intro n hn
    rcases List.mem_map.mp hn with ⟨kv, hkv, hkvn⟩
    rw [← hkvn]
    exact hmain kv hkv
  · intro e he
    have hdef : (detectDeadCode files scenes).deadFunctions =
        (collectDecls files).fns.filterMap
          (decideFn (usagesOf files scenes) (stringRefsOf files scenes)) := rfl
    rw [hdef] at he
    rcases List.mem_filterMap.mp he with ⟨kv, hkv, hdec⟩
    rw [decideFn_name hdec]
    exact hmain kv hkv

/-- Witness for C5: over the corpus declaring `_ready`, `_on_click` and
`helper`, only `helper` reaches the declaration map, and the theorem
applies to it. -/
theorem handler_and_virtual_names_witness :
    (("a.gd::helper").toList) ∈ (detectDeadCode demoSkips []).decls.fns.map
        (fun kv => kv.1) ∧
    ("_on_".toList).isPrefixOf (splitCCsecond (("a.gd::helper").toList)) = false ∧
    virtualMethods.contains (splitCCsecond (("a.gd::helper").toList)) = false := by
  refine ⟨by decide, ?_⟩
  exact (handler_and_virtual_names_never_reported demoSkips [] (by decide)).1
    (splitCCsecond (("a.gd::helper").toList)) (by decide)

/-- C6: a declared signal name is in the orphan list exactly when no
recognized connection and no recognized emission anywhere in the corpus
carries that signal name. -/
theorem orphan_signals_characterization (files : List SrcFile) (n : Str)
    (hn : n ∈ (analyzeSignalFlowCore files).signals.map (fun s => s.name)) :
    (n ∈ (analyzeSignalFlowCore files).orphanSignals.map (fun s => s.name)) ↔
    ((∀ c ∈ (analyzeSignalFlowCore files).connections, ¬ c.signal = n) ∧
     (∀ e ∈ (analyzeSignalFlowCore files).emissions, ¬ e.signal = n)) :=
  orphan_iff hn

/-- Witness for C6: over `demoOrphan`, `lonely` is an orphan and the
emitted signal `used` is not. -/
theorem orphan_signals_characterization_witness :
    (("lonely").toList) ∈
      (analyzeSignalFlowCore demoOrphan).orphanSignals.map (fun s => s.name) ∧
    (("used").toList) ∉
      (analyzeSignalFlowCore demoOrphan).orphanSignals.map (fun s => s.name) := by
  constructor
  · exact (orphan_signals_characterization demoOrphan _ (by decide)).mpr
      ⟨by decide, by decide⟩
  · intro h
    have hall :=
      ((orphan_signals_characterization demoOrphan _ (by decide)).mp h).2
    exact absurd hall (by decide)

/-- C7: the decide pass skips any entry whose recovered name is in the
usage set, so every reported dead-function candidate carries a name
outside the usage set of the scan. -/
theorem used_names_never_reported_dead (files scenes : List SrcFile) :
    ∀ e ∈ (detectDeadCode files scenes).deadFunctions,
      e.name ∉ (detectDeadCode files scenes).usages :=
  fun _ he => deadFn_name_not_used he

/-- Witness for C7 on a corpus with a nonempty dead list (the colon in
the path mangles the recovered name, so the self-registered usage does
not save the entry). -/
theorem used_names_never_reported_dead_witness :
    (DeadFn.mk (("b.gd").toList) (("a::b.gd").toList) 1 false false false) ∈
      (detectDeadCode demoColon []).deadFunctions ∧
    (DeadFn.mk (("b.gd").toList) (("a::b.gd").toList) 1 false false false).name ∉
      (detectDeadCode demoColon []).usages :=
  ⟨by decide, used_names_never_reported_dead demoColon [] _ (by decide)⟩

/-- C8: the flow graph has an entry exactly for the declared signal
names, and the entry for a name aggregates exactly the connections and
emissions carrying that name; a connection or emission whose name was
never declared stays in the raw lists and is attached to no entry. -/
theorem flow_graph_keys_are_declared_signals (files : List SrcFile) :
    (∀ n : Str, (lookupFG n (analyzeSignalFlowCore files).flowGraph).isSome ↔
       n ∈ (analyzeSignalFlowCore files).signals.map (fun s => s.name)) ∧
    (∀ n e, lookupFG n (analyzeSignalFlowCore files).flowGraph = some e →
       e.connectedTo = (((analyzeSignalFlowCore files).connections.filter
           (fun c => c.signal = n)).map (fun c => (c.file, c.handler))) ∧
       e.emittedFrom = (((analyzeSignalFlowCore files).emissions.filter
           (fun x => x.signal = n)).map (fun x => (x.file, x.line)))) := by
  obtain ⟨hs, hc, he, hg⟩ := analyzeSignalFlowCore_fields files
  rw [hs, hc, he, hg]
  exact ⟨fun n => buildFlowGraph_isSome _ _ _ n,
    fun n e hee => buildFlowGraph_entry hee⟩

/-- Witness for C8 over `demoFlow`: the undeclared `ghost` has no entry
although its connection is recorded, and the `sig_a` entry carries
exactly the matching connection and emission. -/
theorem flow_graph_keys_witness :
    lookupFG (("ghost").toList) (analyzeSignalFlowCore demoFlow).flowGraph =
      none ∧
    fentry8.connectedTo =
      (((analyzeSignalFlowCore demoFlow).connections.filter
          (fun c => c.signal = ("sig_a").toList)).map
        (fun c => (c.file, c.handler))) := by
  constructor
  · have h := (flow_graph_keys_are_declared_signals demoFlow).1 (("ghost").toList)
    exact Option.not_isSome_iff_eq_none.mp (fun hs => absurd (h.mp hs) (by decide))
  · exact ((flow_graph_keys_are_declared_signals demoFlow).2
      (("sig_a").toList) fentry8 (by decide)).1

/-- C9: two line lists whose trimmed non-blank lines agree normalize to
the same text, hence hash identically (indentation, surrounding
whitespace and blank lines never separate duplicate groups). -/
theorem normalization_invariant_under_whitespace (l1 l2 : List Str)
    (h : (l1.map jsTrim).filter (fun t => !t.isEmpty) =
         (l2.map jsTrim).filter (fun t => !t.isEmpty)) :
    normalizeCode l1 = normalizeCode l2 ∧
    hashCode (normalizeCode l1) = hashCode (normalizeCode l2) := by
  have hn : normalizeCode l1 = normalizeCode l2 := by
    unfold normalizeCode
    rw [normalizeCode_filter, normalizeCode_filter, h]
  exact ⟨hn, by rw [hn]⟩

/-- Witness for C9: an indented, padded variant with a blank line
normalizes like the plain variant. -/
theorem normalization_invariant_witness :
    normalizeCode [("\tif x:").toList, ("").toList, ("  return 1  ").toList] =
      normalizeCode [("if x:").toList, ("return 1").toList] :=
  (normalization_invariant_under_whitespace _ _ (by decide)).1

/-- C10: the two-function file of the scenario gets complexity 3 for
each function (base 1, plus `if`+`else` on the first body line, plus
`for`+`if` on the second body line). -/
theorem complexity_of_example_functions :
    analyzeFunctionComplexity demoComplexity =
      [FnComplexity.mk (("simple").toList) 1 3,
       FnComplexity.mk (("other").toList) 3 3] := by
  decide

end GodotMCP
